import Mathlib

set_option maxRecDepth 40000
set_option maxHeartbeats 1000000

/-!
Verification of the mini-crossword core: the pattern-indexed word store
(`src/lib/wordbank.ts`), the grid/slot model (`src/lib/grid-analyzer.ts`),
and the backtracking solvers (the MRV `fillGrid` generator and the
index-driven `backtrackFill` generator).

Strings are modelled as `List Char`.  JavaScript `undefined` on optional
characters is modelled with `Option Char`; JavaScript `NaN` produced by
`parseInt` on a non-numeric field is modelled as `Option Int := none`.
JavaScript's stable `Array.prototype.sort` is modelled by the stable
`List.insertionSort` (any two stable sorts agree under a total transitive
comparator; the comparator `b.frequency - a.frequency` is total and
transitive whenever all frequencies are numeric).
-/

namespace Crossword

/-- `?` wildcard used in slot patterns. -/
def wildcard : Char := '?'

/-- ASCII lowercase test, mirroring the `/^[a-z]+$/` regex character class. -/
def isLowerAlpha (c : Char) : Bool := 97 ≤ c.toNat && c.toNat ≤ 122

/-- ASCII decimal digit test. -/
def isDigitCh (c : Char) : Bool := 48 ≤ c.toNat && c.toNat ≤ 57

/-- Whitespace as trimmed by JavaScript `trim` / skipped by `parseInt`
(the data is ASCII; we model the ASCII whitespace characters). -/
def isWs (c : Char) : Bool := c = ' ' || c = '\t' || c = '\n' || c = '\r'

/-- Numeric value of a list of decimal digit characters. -/
def digitsToNat (ds : List Char) : Nat :=
  ds.foldl (fun acc c => acc * 10 + (c.toNat - 48)) 0

/-- JavaScript `parseInt(s, 10)`: skip leading whitespace, optional sign,
then the longest prefix of decimal digits; `NaN` (here `none`) when that
prefix is empty. -/
def jsParseInt (s : List Char) : Option Int :=
  let t := s.dropWhile isWs
  let core : List Char → Option Int := fun u =>
    let ds := u.takeWhile isDigitCh
    if ds.isEmpty then none else some (digitsToNat ds : Int)
  match t with
  | '-' :: rest => (core rest).map (fun n => -n)
  | '+' :: rest => core rest
  | _ => core t

/-- JavaScript `String.prototype.trim`. -/
def jsTrim (s : List Char) : List Char :=
  ((s.dropWhile isWs).reverse.dropWhile isWs).reverse

/-- A dictionary entry: `{ word, frequency }`.  `frequency = none` models
the `NaN` that `parseInt` yields on a non-numeric frequency field. -/
structure WordEntry where
  word : List Char
  frequency : Option Int
  deriving DecidableEq, Repr

/-- One line of `spreadthewordlist.txt` processed as in
`WordBankProcessor.initialize`: split on `;`, skip the line when the word
or frequency field is missing or empty, lowercase and trim the word, parse
the frequency, and keep the entry only when the cleaned word has 3–5
characters all in `a`–`z`. -/
def processLine (line : List Char) : Option WordEntry :=
  let parts := line.splitOn ';'
  match parts[0]?, parts[1]? with
  | some w, some f =>
      if w.isEmpty || f.isEmpty then none
      else
        let cleanWord := jsTrim (w.map Char.toLower)
        let frequency := jsParseInt f
        if 3 ≤ cleanWord.length && cleanWord.length ≤ 5 &&
            cleanWord.all isLowerAlpha then
          some ⟨cleanWord, frequency⟩
        else none
  | _, _ => none

/-- The entries retained from the dictionary lines, in input order. -/
def initEntries (lines : List (List Char)) : List WordEntry :=
  lines.filterMap processLine

/-- The sort comparator `(a, b) => b.frequency - a.frequency` (descending
frequency).  When either frequency is `NaN` the JavaScript comparator
returns `NaN`, which the stable sort treats as "no swap"; we model that as
`True` (both directions hold, so such pairs are left in input order). -/
def freqGe (a b : WordEntry) : Prop :=
  match a.frequency, b.frequency with
  | some x, some y => y ≤ x
  | _, _ => True

instance : DecidableRel freqGe := fun a b => by
  unfold freqGe
  cases a.frequency <;> cases b.frequency <;> simp <;> infer_instance

/-- Stable sort by descending frequency (`sortByFrequency`). -/
def sortByFrequency (l : List WordEntry) : List WordEntry :=
  l.insertionSort freqGe

/-- The per-length frequency-sorted bucket `wordsByLength[L]`: the retained
entries of length `L`, in input order, then stably sorted by descending
frequency — exactly what pushing into the bucket and sorting produces. -/
def wordsByLength (entries : List WordEntry) (L : Nat) : List WordEntry :=
  sortByFrequency (entries.filter (fun e => e.word.length == L))

/-- The positional-index leaf `positionIndex[L][c][i]`: entries of length
`L` whose letter at position `i` is `c`, in input order, sorted by
descending frequency (each leaf is pushed in input order during
`addToPositionIndex` and then sorted in `sortByFrequency`).  A missing
bucket in the nested JavaScript objects corresponds to this filter being
empty. -/
def positionIndexAt (entries : List WordEntry) (L : Nat) (c : Char) (i : Nat) :
    List WordEntry :=
  sortByFrequency
    (entries.filter (fun e => e.word.length == L && e.word[i]? == some c))

/-- `matchesPattern(word, pattern)`: equal length and agreement at every
non-wildcard position. -/
def matchesPattern (word pattern : List Char) : Bool :=
  word.length == pattern.length &&
    (pattern.zip word).all (fun pc => pc.1 == wildcard || pc.1 == pc.2)

/-- The first non-wildcard position of a pattern with its character
(the `constrainedPos`/`constrainedChar` scan; `none` when the pattern is
all wildcards). -/
def firstConstrained (pattern : List Char) : Option (Nat × Char) :=
  pattern.enum.find? (fun ic => ic.2 != wildcard)

/-- The word store: retained entries (the immutable part built by
`initialize`) plus the lazily-grown pattern cache.  The per-length lists
and positional index are derived views of `entries` (they are built once
from the same filtered input and never mutated). -/
structure WordBank where
  entries : List WordEntry
  cache : List ((Nat × List Char) × List WordEntry)
  deriving Repr

/-- A freshly initialized store: processed entries, empty cache. -/
def initializeBank (lines : List (List Char)) : WordBank :=
  ⟨initEntries lines, []⟩

/-- Cache-free core of `findWordsMatching`: all-wildcard patterns return
the whole per-length list; otherwise the positional index on the first
non-wildcard position seeds the candidates, which are filtered by the full
pattern.  (With `constrainedPos = -1` — an all-wildcard pattern whose
length differs from `length` — the per-length list is the seed.) -/
def findWordsMatchingPure (entries : List WordEntry) (L : Nat)
    (pattern : List Char) : List WordEntry :=
  if pattern = List.replicate L wildcard then wordsByLength entries L
  else
    match firstConstrained pattern with
    | some (i, c) =>
        (positionIndexAt entries L c i).filter
          (fun e => matchesPattern e.word pattern)
    | none =>
        (wordsByLength entries L).filter
          (fun e => matchesPattern e.word pattern)

/-- `findWordsMatching`: consult the cache keyed by `(length, pattern)`
(the source key string `` `${length}:${pattern}` `` encodes that pair
injectively), otherwise compute and cache. -/
def findWordsMatching (bank : WordBank) (L : Nat) (pattern : List Char) :
    List WordEntry × WordBank :=
  match bank.cache.lookup (L, pattern) with
  | some r => (r, bank)
  | none =>
      let r := findWordsMatchingPure bank.entries L pattern
      (r, ⟨bank.entries, ((L, pattern), r) :: bank.cache⟩)

/-- Cache consistency: every cached result is what the cache-free core
computes (true initially, preserved by every query, hence true in every
reachable store state). -/
def CacheOk (bank : WordBank) : Prop :=
  ∀ k r, (k, r) ∈ bank.cache → r = findWordsMatchingPure bank.entries k.1 k.2

/-- Numeric (non-`NaN`) frequency. -/
def NumericFreq (e : WordEntry) : Prop := e.frequency.isSome

end Crossword

namespace Crossword

-- sanity examples (spec §8: dictionary cat;500, car;300, can;100)
example :
    initEntries ["cat;500".toList, "car;300".toList, "can;100".toList] =
      [⟨"cat".toList, some 500⟩, ⟨"car".toList, some 300⟩,
       ⟨"can".toList, some 100⟩] := by decide

example :
    (findWordsMatching
        (initializeBank ["cat;500".toList, "car;300".toList, "can;100".toList])
        3 "ca?".toList).1 =
      [⟨"cat".toList, some 500⟩, ⟨"car".toList, some 300⟩,
       ⟨"can".toList, some 100⟩] := by decide

-- a malformed line with non-numeric frequency is kept, with NaN frequency
example : initEntries ["cat;abc".toList] = [⟨"cat".toList, none⟩] := by decide

-- a line without separator is skipped
example : initEntries ["cat".toList, ";12".toList, "cat;".toList] = [] := by
  decide

/-! ### Word-store lemmas -/

theorem mem_sortByFrequency {e : WordEntry} {l : List WordEntry} :
    e ∈ sortByFrequency l ↔ e ∈ l :=
  List.mem_insertionSort freqGe

theorem freqGe_total (a b : WordEntry) : freqGe a b ∨ freqGe b a := by
  unfold freqGe
  cases a.frequency <;> cases b.frequency <;> simp
  exact le_total _ _

theorem freqGe_trans_mid {a b c : WordEntry} (hb : NumericFreq b)
    (h1 : freqGe a b) (h2 : freqGe b c) : freqGe a c := by
  unfold freqGe at *
  unfold NumericFreq at hb
  cases ha : a.frequency <;> cases hbv : b.frequency <;> cases hc : c.frequency <;>
    simp_all
  omega

theorem sorted_orderedInsert (a : WordEntry) (s : List WordEntry)
    (hs : s.Sorted freqGe) (hnum : ∀ e ∈ s, NumericFreq e) :
    (s.orderedInsert freqGe a).Sorted freqGe := by
  induction s with
  | nil => simp [List.orderedInsert, List.Sorted]
  | cons b s ih =>
    rw [List.orderedInsert]
    rcases List.sorted_cons.mp hs with ⟨hb, hs'⟩
    by_cases hab : freqGe a b
    · rw [if_pos hab]
      refine List.sorted_cons.mpr ⟨?_, hs⟩
      intro x hx
      rcases List.mem_cons.mp hx with rfl | hx'
      · exact hab
      · exact freqGe_trans_mid (hnum b (List.mem_cons_self b s)) hab (hb x hx')
    · rw [if_neg hab]
      refine List.sorted_cons.mpr ⟨?_, ?_⟩
      · intro x hx
        rcases (List.mem_orderedInsert freqGe).mp hx with hxa | hx'
        · rw [hxa]
          rcases freqGe_total a b with h | h
          · exact absurd h hab
          · exact h
        · exact hb x hx'
      · exact ih hs' (fun e he => hnum e (List.mem_cons_of_mem b he))

theorem sorted_sortByFrequency (l : List WordEntry)
    (h : ∀ e ∈ l, NumericFreq e) : (sortByFrequency l).Sorted freqGe := by
  induction l with
  | nil => simp [sortByFrequency, List.insertionSort, List.Sorted]
  | cons a l ih =>
    have : sortByFrequency (a :: l) =
        (sortByFrequency l).orderedInsert freqGe a := rfl
    rw [this]
    exact sorted_orderedInsert a _
      (ih (fun e he => h e (List.mem_cons_of_mem a he)))
      (fun e he => h e (List.mem_cons_of_mem a (mem_sortByFrequency.mp he)))

theorem matchesPattern_cons (a p : Char) (w P : List Char) :
    matchesPattern (a :: w) (p :: P) =
      ((p == wildcard || p == a) && matchesPattern w P) := by
  simp only [matchesPattern, List.length_cons, List.zip_cons_cons, List.all_cons]
  rw [Bool.and_left_comm]
  congr 1
  cases h : (w.length == P.length) <;> simp_all

theorem matchesPattern_iff (w P : List Char) :
    matchesPattern w P = true ↔
      w.length = P.length ∧
        ∀ (i : Nat) (c : Char), P[i]? = some c → c ≠ wildcard → w[i]? = some c := by
  induction P generalizing w with
  | nil =>
    cases w with
    | nil => simp [matchesPattern]
    | cons a w => simp [matchesPattern]
  | cons p P ih =>
    cases w with
    | nil => simp [matchesPattern]
    | cons a w =>
      rw [matchesPattern_cons]
      constructor
      · intro h
        rw [Bool.and_eq_true] at h
        rcases h with ⟨h1, h2⟩
        rcases (ih w).mp h2 with ⟨hlen, hidx⟩
        refine ⟨by simp [hlen], ?_⟩
        intro i c hc hcw
        cases i with
        | zero =>
          rw [List.getElem?_cons_zero] at hc
          rw [List.getElem?_cons_zero]
          rcases Option.some.inj hc with rfl
          rw [Bool.or_eq_true] at h1
          rcases h1 with h' | h'
          · exact absurd (by simpa using h') hcw
          · have : p = a := by simpa using h'
            rw [this]
        | succ i =>
          rw [List.getElem?_cons_succ] at hc
          rw [List.getElem?_cons_succ]
          exact hidx i c hc hcw
      · rintro ⟨hlen, hidx⟩
        rw [Bool.and_eq_true]
        refine ⟨?_, (ih w).mpr ⟨by simpa using hlen, ?_⟩⟩
        · by_cases hp : p = wildcard
          · simp [hp]
          · have := hidx 0 p (by simp) hp
            rw [List.getElem?_cons_zero] at this
            simp [Option.some.inj this]
        · intro i c hc hcw
          have := hidx (i + 1) c (by simpa using hc) hcw
          simpa using this

theorem matchesPattern_length {w P : List Char} (h : matchesPattern w P = true) :
    w.length = P.length :=
  ((matchesPattern_iff w P).mp h).1

theorem matchesPattern_replicate {w : List Char} {L : Nat}
    (h : w.length = L) : matchesPattern w (List.replicate L wildcard) = true := by
  refine (matchesPattern_iff w _).mpr ⟨by simpa using h, ?_⟩
  intro i c hc hcw
  exact absurd (List.eq_of_mem_replicate (List.getElem?_mem hc)) hcw

theorem firstConstrained_some {P : List Char} {i : Nat} {c : Char}
    (h : firstConstrained P = some (i, c)) :
    P[i]? = some c ∧ c ≠ wildcard := by
  unfold firstConstrained at h
  have hmem := List.mem_of_find?_eq_some h
  have hp := List.find?_some h
  refine ⟨List.mem_enum_iff_getElem?.mp hmem, ?_⟩
  simpa using hp

theorem firstConstrained_none {P : List Char}
    (h : firstConstrained P = none) : ∀ c ∈ P, c = wildcard := by
  intro c hc
  rcases List.mem_iff_getElem?.mp hc with ⟨i, hi⟩
  have := List.find?_eq_none.mp h (i, c) (List.mem_enum_iff_getElem?.mpr hi)
  simpa using this

theorem lookup_mem {β γ : Type _} [BEq β] [LawfulBEq β] {k : β} {r : γ}
    {ps : List (β × γ)} (h : ps.lookup k = some r) : (k, r) ∈ ps := by
  induction ps with
  | nil => simp [List.lookup] at h
  | cons p ps ih =>
    rw [List.lookup] at h
    cases hk : (k == p.1) with
    | true =>
      rw [hk] at h
      have hk1 : k = p.1 := eq_of_beq hk
      have hr : p.2 = r := Option.some.inj h
      have : (k, r) = p := by
        rw [hk1, ← hr]
      rw [this]
      exact List.mem_cons_self p ps
    | false =>
      rw [hk] at h
      exact List.mem_cons_of_mem p (ih h)

theorem findWordsMatching_fst {bank : WordBank} {L : Nat} {P : List Char}
    (h : CacheOk bank) :
    (findWordsMatching bank L P).1 = findWordsMatchingPure bank.entries L P := by
  unfold findWordsMatching
  cases hl : bank.cache.lookup (L, P) with
  | none => rfl
  | some r => exact h (L, P) r (lookup_mem hl)

theorem mem_findWordsMatchingPure {entries : List WordEntry} {L : Nat}
    {P : List Char} {e : WordEntry} :
    e ∈ findWordsMatchingPure entries L P ↔
      e ∈ entries ∧ e.word.length = L ∧ matchesPattern e.word P = true := by
  unfold findWordsMatchingPure
  by_cases hrep : P = List.replicate L wildcard
  · rw [if_pos hrep]
    unfold wordsByLength
    rw [mem_sortByFrequency, List.mem_filter]
    constructor
    · rintro ⟨h1, h2⟩
      have hlen : e.word.length = L := by simpa using h2
      exact ⟨h1, hlen, by rw [hrep]; exact matchesPattern_replicate hlen⟩
    · rintro ⟨h1, h2, _⟩
      exact ⟨h1, by simpa using h2⟩
  · rw [if_neg hrep]
    cases hf : firstConstrained P with
    | none =>
      unfold wordsByLength
      rw [List.mem_filter, mem_sortByFrequency, List.mem_filter]
      constructor
      · rintro ⟨⟨h1, h2⟩, h3⟩
        exact ⟨h1, by simpa using h2, h3⟩
      · rintro ⟨h1, h2, h3⟩
        exact ⟨⟨h1, by simpa using h2⟩, h3⟩
    | some ic =>
      obtain ⟨i, c⟩ := ic
      rcases firstConstrained_some hf with ⟨hPi, hcw⟩
      unfold positionIndexAt
      rw [List.mem_filter, mem_sortByFrequency, List.mem_filter]
      constructor
      · rintro ⟨⟨h1, h2⟩, h3⟩
        refine ⟨h1, ?_, h3⟩
        simp at h2
        exact h2.1
      · rintro ⟨h1, h2, h3⟩
        refine ⟨⟨h1, ?_⟩, h3⟩
        have := ((matchesPattern_iff e.word P).mp h3).2 i c hPi hcw
        simp [h2, this]

theorem sorted_findWordsMatchingPure {entries : List WordEntry} {L : Nat}
    {P : List Char} (h : ∀ e ∈ entries, NumericFreq e) :
    (findWordsMatchingPure entries L P).Sorted freqGe := by
  have hw : (wordsByLength entries L).Sorted freqGe := by
    apply sorted_sortByFrequency
    intro e he
    exact h e (List.mem_filter.mp he).1
  have hp : ∀ c i, (positionIndexAt entries L c i).Sorted freqGe := by
    intro c i
    apply sorted_sortByFrequency
    intro e he
    exact h e (List.mem_filter.mp he).1
  unfold findWordsMatchingPure
  by_cases hrep : P = List.replicate L wildcard
  · rw [if_pos hrep]; exact hw
  · rw [if_neg hrep]
    cases hf : firstConstrained P with
    | none => exact List.Pairwise.sublist (List.filter_sublist _) hw
    | some ic =>
      obtain ⟨i, c⟩ := ic
      exact List.Pairwise.sublist (List.filter_sublist _) (hp c i)

theorem processLine_wordOk {line : List Char} {e : WordEntry}
    (h : processLine line = some e) :
    3 ≤ e.word.length ∧ e.word.length ≤ 5 ∧ e.word.all isLowerAlpha = true := by
  simp only [processLine] at h
  split at h
  case h_2 => exact absurd h (by simp)
  case h_1 w f _ =>
    split at h
    · exact absurd h (by simp)
    · split at h
      case isTrue hg =>
        rcases Option.some.inj h with rfl
        simp only [Bool.and_eq_true, decide_eq_true_eq] at hg
        exact ⟨hg.1.1, hg.1.2, hg.2⟩
      case isFalse => exact absurd h (by simp)

theorem initEntries_wordOk {lines : List (List Char)} {e : WordEntry}
    (h : e ∈ initEntries lines) :
    3 ≤ e.word.length ∧ e.word.length ≤ 5 ∧ e.word.all isLowerAlpha = true := by
  rcases List.mem_filterMap.mp h with ⟨line, _, hline⟩
  exact processLine_wordOk hline

theorem processLine_no_sep {line : List Char} (h : ¬ (';' ∈ line)) :
    processLine line = none := by
  unfold processLine
  have : line.splitOn ';' = [line] := by
    unfold List.splitOn
    exact List.splitOnP_eq_single _ _ (fun x hx => by
      simp only [beq_iff_eq]
      intro hxe
      exact h (hxe ▸ hx))
  rw [this]
  rfl

theorem cacheOk_initializeBank (lines : List (List Char)) :
    CacheOk (initializeBank lines) := by
  intro k r h
  simp [initializeBank] at h

/-! ### Claim C1 -/

/-- C1: for an initialized word store (any reachable cache state), every
length `L ∈ {3,4,5}` and pattern `P` of `L` lowercase-or-wildcard
characters, `findWordsMatching {length := L, pattern := P}` returns exactly
the stored entries of length `L` that match `P` at every non-wildcard
position, ordered by descending frequency. -/
theorem C1_findWordsMatching_exact (bank : WordBank) (L : Nat) (P : List Char)
    (hL : L = 3 ∨ L = 4 ∨ L = 5) (hlen : P.length = L)
    (hchars : ∀ c ∈ P, c = wildcard ∨ isLowerAlpha c = true)
    (hcache : CacheOk bank) (hnum : ∀ e ∈ bank.entries, NumericFreq e) :
    (∀ e, e ∈ (findWordsMatching bank L P).1 ↔
        e ∈ bank.entries ∧ e.word.length = L ∧ matchesPattern e.word P = true) ∧
      ((findWordsMatching bank L P).1).Sorted freqGe := by
  rw [findWordsMatching_fst hcache]
  exact ⟨fun e => mem_findWordsMatchingPure, sorted_findWordsMatchingPure hnum⟩

/-- Sample dictionary from spec §8: `cat;500, car;300, can;100`. -/
def bankCCC : WordBank :=
  initializeBank ["cat;500".toList, "car;300".toList, "can;100".toList]

/-- Witness for C1 at the spec §8 example: `findMatching(3, "ca?")`. -/
theorem C1_witness :
    (∀ e, e ∈ (findWordsMatching bankCCC 3 "ca?".toList).1 ↔
        e ∈ bankCCC.entries ∧ e.word.length = 3 ∧
          matchesPattern e.word "ca?".toList = true) ∧
      ((findWordsMatching bankCCC 3 "ca?".toList).1).Sorted freqGe :=
  C1_findWordsMatching_exact bankCCC 3 "ca?".toList (Or.inl rfl) (by decide)
    (by decide) (cacheOk_initializeBank _)
    (fun e he => by
      have hall : (initEntries ["cat;500".toList, "car;300".toList,
          "can;100".toList]).all (fun e => e.frequency.isSome) = true := by decide
      exact List.all_eq_true.mp hall e he)

/-! ### Claim C9 -/

/-- C9 counterexample: the dictionary line `cat;abc` has a non-numeric
frequency field, yet `initialize` stores an entry for it (with `NaN`
frequency) instead of skipping the line. -/
theorem C9_counterexample :
    (⟨"cat".toList, none⟩ : WordEntry) ∈
        (initializeBank ["cat;abc".toList]).entries ∧
      ¬ NumericFreq ⟨"cat".toList, none⟩ := by
  constructor
  · decide
  · intro h
    simp [NumericFreq] at h

/-- C9 amended: lines missing the `;` separator (and lines whose word or
frequency field is empty) are skipped and never abort initialization, and
every stored entry's word has 3–5 characters, all lowercase letters; but a
line whose frequency field is non-numeric is kept with `NaN` frequency, so
stored frequencies need not be numeric. -/
theorem C9_initialize_filters (lines : List (List Char)) :
    (∀ line ∈ lines, ¬ (';' ∈ line) → processLine line = none) ∧
      (∀ e ∈ (initializeBank lines).entries,
        3 ≤ e.word.length ∧ e.word.length ≤ 5 ∧
          e.word.all isLowerAlpha = true) :=
  ⟨fun _ _ h => processLine_no_sep h, fun _ he => initEntries_wordOk he⟩

/-- Witness for C9 amended at a concrete dictionary. -/
theorem C9_witness :
    processLine "nosep".toList = none ∧
      3 ≤ (⟨"cat".toList, some 500⟩ : WordEntry).word.length ∧
        (⟨"cat".toList, some 500⟩ : WordEntry).word.length ≤ 5 ∧
        (⟨"cat".toList, some 500⟩ : WordEntry).word.all isLowerAlpha = true :=
  ⟨(C9_initialize_filters ["nosep".toList]).1 "nosep".toList (by decide)
      (by decide),
    (C9_initialize_filters ["cat;500".toList]).2 ⟨"cat".toList, some 500⟩
      (by decide)⟩

/-! ### Claim C10 -/

/-- C10: once the store is initialized, `findWordsMatching` is total, and
any pattern containing a character that is neither a lowercase letter nor
the wildcard, or whose length differs from the queried length
`L ∈ {3,4,5}`, yields the empty list (the missing positional-index bucket
seeds no candidates and the full-pattern filter rejects every word). -/
theorem C10_garbage_pattern_empty (lines : List (List Char))
    (L : Nat) (P : List Char) (hL : L = 3 ∨ L = 4 ∨ L = 5)
    (hbad : (∃ c ∈ P, ¬(c = wildcard ∨ isLowerAlpha c = true)) ∨
      P.length ≠ L) :
    (findWordsMatching (initializeBank lines) L P).1 = [] := by
  rw [findWordsMatching_fst (cacheOk_initializeBank lines)]
  rw [List.eq_nil_iff_forall_not_mem]
  intro e hmem
  rcases mem_findWordsMatchingPure.mp hmem with ⟨hent, hlen, hmat⟩
  have hwp : e.word.length = P.length := matchesPattern_length hmat
  rcases hbad with ⟨c, hcP, hcbad⟩ | hbadlen
  · have hcw : c ≠ wildcard := fun h => hcbad (Or.inl h)
    rcases List.mem_iff_getElem?.mp hcP with ⟨j, hj⟩
    have hwj := ((matchesPattern_iff e.word P).mp hmat).2 j c hj hcw
    have hcmem : c ∈ e.word := List.getElem?_mem hwj
    have := List.all_eq_true.mp (initEntries_wordOk hent).2.2 c hcmem
    exact hcbad (Or.inr this)
  · exact hbadlen (hwp ▸ hlen)

/-- Witness for C10: a pattern with an uppercase letter, and a pattern of
the wrong length, both return the empty list on a concrete store. -/
theorem C10_witness :
    (findWordsMatching (initializeBank ["cat;500".toList]) 3 "cA?".toList).1
        = [] ∧
      (findWordsMatching (initializeBank ["cat;500".toList]) 3 "??".toList).1
        = [] :=
  ⟨C10_garbage_pattern_empty _ 3 "cA?".toList (Or.inl rfl)
      (Or.inl ⟨'A', by decide, by decide⟩),
    C10_garbage_pattern_empty _ 3 "??".toList (Or.inl rfl)
      (Or.inr (by decide))⟩

end Crossword

namespace Crossword

/-! ## Grid model (`src/lib/grid-analyzer.ts`)

The 5×5 grid of cells, the slot list, and the `GridAnalyzer` static
methods.  `acrossSlots`/`downSlots` in the source hold the same slot
objects as `slots`, so they are modelled as derived filters.  Slot ids in
the source are the strings `` `across_${n}` ``/`` `down_${n}` `` produced
from one shared running counter and are only ever compared for equality;
we keep the injective counter value. -/

inductive Dir where
  | across
  | down
  deriving DecidableEq, Repr

structure Coord where
  row : Nat
  col : Nat
  deriving DecidableEq, Repr

structure GridCell where
  ctype : Char
  letter : Option Char
  number : Option Nat
  deriving DecidableEq, Repr

/-- Cell value JavaScript would read out of bounds; white-cell accesses in
the analyzed flows are always in bounds for grids built from 5×5 masks. -/
def defaultCell : GridCell := ⟨'#', none, none⟩

structure Slot where
  id : Nat
  direction : Dir
  startRow : Nat
  startCol : Nat
  length : Nat
  cells : List Coord
  number : Nat
  pattern : List Char
  candidates : List (List Char)
  deriving DecidableEq, Repr

def defaultSlot : Slot := ⟨0, Dir.across, 0, 0, 0, [], 0, [], []⟩

structure Grid where
  cells : List (List GridCell)
  slots : List Slot
  deriving DecidableEq, Repr

def acrossSlots (g : Grid) : List Slot :=
  g.slots.filter (fun s => s.direction == Dir.across)

def downSlots (g : Grid) : List Slot :=
  g.slots.filter (fun s => s.direction == Dir.down)

structure Mask where
  grid : List (List Char)
  deriving DecidableEq, Repr

def gridSize : Nat := 5

/-- `mask.grid[r][c] === '.'` (out-of-bounds reads `undefined`, which is
not `'.'`). -/
def maskWhite (m : Mask) (r c : Nat) : Bool :=
  ((m.grid[r]?).bind (fun row => row[c]?)) == some '.'

def cellAtL (cs : List (List GridCell)) (r c : Nat) : GridCell :=
  (((cs[r]?).bind (fun row => row[c]?)).getD defaultCell)

def cellAt (g : Grid) (p : Coord) : GridCell := cellAtL g.cells p.row p.col

def modifyCell (cs : List (List GridCell)) (r c : Nat)
    (f : GridCell → GridCell) : List (List GridCell) :=
  List.modify (fun row => List.modify f c row) r cs

/-- The run scan of `detectSlots`: iterate positions `0..size` inclusive
(with the out-of-bounds sentinel read as black), tracking the start of the
current white run and closing it on a non-white position; returns the
maximal white runs as `(start, length)` pairs in scan order. -/
def runStep (white : Nat → Bool) (acc : List (Nat × Nat) × Option Nat)
    (i : Nat) : List (Nat × Nat) × Option Nat :=
  match acc.2 with
  | none =>
      if decide (i < gridSize) && white i then (acc.1, some i) else acc
  | some s =>
      if decide (i < gridSize) && white i then acc
      else (acc.1 ++ [(s, i - s)], none)

def scanRuns (white : Nat → Bool) : List (Nat × Nat) :=
  ((List.range (gridSize + 1)).foldl (runStep white) ([], none)).1

/-- `detectSlots`: across runs row by row, then down runs column by
column, keeping runs of length 3–5; ids are assigned by the shared
push counter, i.e. the position in the concatenated kept list. -/
def detectSlots (m : Mask) : List Slot :=
  let acrossRaw := (List.range gridSize).flatMap (fun r =>
    ((scanRuns (fun c => maskWhite m r c)).filter
        (fun sl => decide (3 ≤ sl.2) && decide (sl.2 ≤ 5))).map
      (fun sl => (Dir.across, r, sl.1, sl.2)))
  let downRaw := (List.range gridSize).flatMap (fun c =>
    ((scanRuns (fun r => maskWhite m r c)).filter
        (fun sl => decide (3 ≤ sl.2) && decide (sl.2 ≤ 5))).map
      (fun sl => (Dir.down, sl.1, c, sl.2)))
  (acrossRaw ++ downRaw).enum.map (fun iq =>
    match iq.2 with
    | (Dir.across, r, st, len) =>
        { id := iq.1, direction := Dir.across, startRow := r, startCol := st,
          length := len,
          cells := (List.range len).map (fun k => ⟨r, st + k⟩),
          number := 0, pattern := List.replicate len wildcard,
          candidates := [] }
    | (Dir.down, st, c, len) =>
        { id := iq.1, direction := Dir.down, startRow := st, startCol := c,
          length := len,
          cells := (List.range len).map (fun k => ⟨st + k, c⟩),
          number := 0, pattern := List.replicate len wildcard,
          candidates := [] })

/-- One iteration of the `assignClueNumbers` reading-order loop at cell
`rc`: skip black cells and cells where no slot starts; otherwise stamp the
next number on the cell and on every slot starting there. -/
def acnStep (st : List (List GridCell) × List Slot × Nat) (rc : Nat × Nat) :
    List (List GridCell) × List Slot × Nat :=
  if (cellAtL st.1 rc.1 rc.2).ctype == '#' then st
  else if (st.2.1.filter
      (fun s => s.startRow == rc.1 && s.startCol == rc.2)).isEmpty then st
  else
    (modifyCell st.1 rc.1 rc.2 (fun cell => { cell with number := some st.2.2 }),
     st.2.1.map (fun s =>
       if s.startRow == rc.1 && s.startCol == rc.2 then
         { s with number := st.2.2 } else s),
     st.2.2 + 1)

/-- The reading-order list of cell coordinates scanned by
`assignClueNumbers`. -/
def acnPositions : List (Nat × Nat) :=
  (List.range gridSize).flatMap (fun r =>
    (List.range gridSize).map (fun c => (r, c)))

/-- `assignClueNumbers`: visit cells in reading order; every non-black
cell at which some slot starts receives the next sequential number, shared
by all slots starting there. -/
def assignClueNumbers (cells : List (List GridCell)) (slots : List Slot) :
    List (List GridCell) × List Slot :=
  ((acnPositions.foldl acnStep (cells, slots, 1)).1,
   (acnPositions.foldl acnStep (cells, slots, 1)).2.1)

/-- The fresh cell array of `buildGrid` (letters and numbers unset). -/
def initCells (m : Mask) : List (List GridCell) :=
  (List.range gridSize).map (fun r =>
    (List.range gridSize).map (fun c =>
      { ctype := ((m.grid[r]?).bind (fun row => row[c]?)).getD '#',
        letter := none, number := none }))

/-- `GridAnalyzer.buildGrid`. -/
def buildGrid (m : Mask) : Grid :=
  { cells := (assignClueNumbers (initCells m) (detectSlots m)).1,
    slots := (assignClueNumbers (initCells m) (detectSlots m)).2 }

/-- The read-derived pattern of a slot: its cells' letters with the
wildcard where a cell has no letter. -/
def slotView (g : Grid) (s : Slot) : List Char :=
  s.cells.map (fun p => (cellAt g p).letter.getD wildcard)

/-- `GridAnalyzer.updateSlotPatterns`. -/
def updateSlotPatterns (g : Grid) : Grid :=
  { g with slots := g.slots.map (fun s => { s with pattern := slotView g s }) }

/-- `GridAnalyzer.getIntersectingSlots`: every
`(other slot, index in target, index in other)` where a slot of the other
direction (and different id) shares a cell with the target, in source
iteration order. -/
def getIntersectingSlots (target : Slot) (all : List Slot) :
    List (Slot × Nat × Nat) :=
  all.flatMap (fun s =>
    if s.id == target.id || s.direction == target.direction then []
    else
      target.cells.enum.flatMap (fun tic =>
        s.cells.enum.filterMap (fun iic =>
          if tic.2 == iic.2 then some (s, tic.1, iic.1) else none)))

/-- `GridAnalyzer.isValidPlacement`: length must match and at every
intersection the other slot's pattern letter must be the wildcard or agree
with the placed word (both characters read with JavaScript indexing, i.e.
`Option Char`). -/
def isValidPlacement (w : List Char) (slot : Slot) (g : Grid) : Bool :=
  w.length == slot.length &&
    (getIntersectingSlots slot g.slots).all (fun x =>
      let required := w[x.2.1]?
      let existing := x.1.pattern[x.2.2]?
      !(existing != some wildcard && existing != required))

/-- `GridAnalyzer.placeWord`: on length mismatch the source throws before
mutating anything, so the grid state is unchanged (modelled as returning
the grid); otherwise write each letter into the slot's cells and refresh
every pattern. -/
def writeStep (cs : List (List GridCell)) (pc : Coord × Char) :
    List (List GridCell) :=
  modifyCell cs pc.1.row pc.1.col (fun cell => { cell with letter := some pc.2 })

def placeWord (w : List Char) (slot : Slot) (g : Grid) : Grid :=
  if w.length ≠ slot.length then g
  else
    updateSlotPatterns
      { g with cells := (slot.cells.zip w).foldl writeStep g.cells }

/-- One iteration of `removeWord`'s loop at cell `p`: clear the letter
only when no other slot (by id) covers the cell. -/
def removeStep (g : Grid) (slot : Slot) (cs : List (List GridCell))
    (p : Coord) : List (List GridCell) :=
  if (g.slots.filter (fun s =>
      s.id != slot.id && s.cells.any (fun q => q == p))).isEmpty then
    modifyCell cs p.row p.col (fun cell => { cell with letter := none })
  else cs

/-- `GridAnalyzer.removeWord`: clear the letter of each cell of the slot
that no other slot (by id) covers, then refresh every pattern. -/
def removeWord (slot : Slot) (g : Grid) : Grid :=
  updateSlotPatterns
    { g with cells := slot.cells.foldl (removeStep g slot) g.cells }

/-- The spec §8 test mask: across(0,0..2) and down(0..2,0) only. -/
def m0 : Mask :=
  ⟨[['.', '.', '.', '#', '#'],
    ['.', '#', '#', '#', '#'],
    ['.', '#', '#', '#', '#'],
    ['#', '#', '#', '#', '#'],
    ['#', '#', '#', '#', '#']]⟩

-- sanity: m0 yields exactly one across slot and one down slot, both
-- length 3, both numbered 1, starting at (0,0)
example : ((buildGrid m0).slots.map (fun s =>
    (s.direction, s.startRow, s.startCol, s.length, s.number))) =
    [(Dir.across, 0, 0, 3, 1), (Dir.down, 0, 0, 3, 1)] := by decide

example : (buildGrid m0).slots.map (fun s => s.pattern) =
    ["???".toList, "???".toList] := by decide

/-! ### Claim C2: the pattern/cells invariant -/

/-- The hard invariant: every slot's `pattern` equals the letters
currently in its cells, with the wildcard where a cell has no letter. -/
def PatternInv (g : Grid) : Prop := ∀ s ∈ g.slots, s.pattern = slotView g s

theorem patternInv_updateSlotPatterns (g : Grid) :
    PatternInv (updateSlotPatterns g) := by
  intro s hs
  rcases List.mem_map.mp hs with ⟨s', _, rfl⟩
  rfl

theorem patternInv_placeWord (w : List Char) (slot : Slot) (g : Grid)
    (h : PatternInv g) : PatternInv (placeWord w slot g) := by
  unfold placeWord
  split
  · exact h
  · exact patternInv_updateSlotPatterns _

theorem patternInv_removeWord (slot : Slot) (g : Grid) :
    PatternInv (removeWord slot g) :=
  patternInv_updateSlotPatterns _

/-- Shape facts about freshly detected slots. -/
theorem detectSlots_shape {m : Mask} {s : Slot} (h : s ∈ detectSlots m) :
    s.pattern = List.replicate s.length wildcard ∧
      s.cells.length = s.length := by
  unfold detectSlots at h
  rcases List.mem_map.mp h with ⟨iq, _, rfl⟩
  rcases iq with ⟨i, d, a, b, len⟩
  cases d <;> simp

/-- Effect of `modifyCell` on a cell read: the modifier is applied at the
modified coordinate (when in bounds) and nothing else changes. -/
theorem getElem?_modifyCell (cs : List (List GridCell)) (r c : Nat)
    (f : GridCell → GridCell) (r' c' : Nat) :
    ((modifyCell cs r c f)[r']?.bind (fun row => row[c']?)) =
      (cs[r']?.bind (fun row => row[c']?)).map
        (fun cell => if r = r' ∧ c = c' then f cell else cell) := by
  unfold modifyCell
  rw [List.getElem?_modify]
  cases hr : cs[r']? with
  | none => simp
  | some row =>
    simp only [Option.map_some, Option.some_bind]
    by_cases hrr : r = r'
    · subst hrr
      rw [if_pos rfl]
      rw [List.getElem?_modify]
      cases hc : row[c']? with
      | none => rfl
      | some cell =>
        by_cases hcc : c = c'
        · simp [hcc]
        · simp [hcc]
    · rw [if_neg hrr]
      cases hc : row[c']? with
      | none => rfl
      | some cell => simp [hrr]

/-- A cell modifier that does not touch the letter leaves every read
letter unchanged. -/
theorem letter_cellAtL_modify (f : GridCell → GridCell)
    (hf : ∀ cell, (f cell).letter = cell.letter)
    (cs : List (List GridCell)) (r c r' c' : Nat) :
    (cellAtL (modifyCell cs r c f) r' c').letter = (cellAtL cs r' c').letter := by
  unfold cellAtL
  rw [getElem?_modifyCell]
  cases h : cs[r']?.bind (fun row => row[c']?) with
  | none => rfl
  | some cell =>
    simp only [Option.map_some', Option.getD_some]
    split
    · exact hf cell
    · rfl

/-- Slot-shape equality up to the `number` field. -/
def SameShape (s s0 : Slot) : Prop :=
  s.pattern = s0.pattern ∧ s.cells = s0.cells ∧ s.length = s0.length

theorem acnStep_slots {st : List (List GridCell) × List Slot × Nat}
    {rc : Nat × Nat} {s : Slot} (h : s ∈ (acnStep st rc).2.1) :
    ∃ s0 ∈ st.2.1, SameShape s s0 := by
  unfold acnStep at h
  split at h
  · exact ⟨s, h, rfl, rfl, rfl⟩
  · split at h
    · exact ⟨s, h, rfl, rfl, rfl⟩
    · rcases List.mem_map.mp h with ⟨s0, hs0, rfl⟩
      refine ⟨s0, hs0, ?_⟩
      split <;> exact ⟨rfl, rfl, rfl⟩

theorem acnStep_letter (st : List (List GridCell) × List Slot × Nat)
    (rc : Nat × Nat) (r c : Nat) :
    (cellAtL (acnStep st rc).1 r c).letter = (cellAtL st.1 r c).letter := by
  unfold acnStep
  split
  · rfl
  · split
    · rfl
    · exact letter_cellAtL_modify
        (fun cell => { cell with number := some st.2.2 }) (fun _ => rfl)
        st.1 rc.1 rc.2 r c

theorem acnFold_slots {pos : List (Nat × Nat)}
    {st : List (List GridCell) × List Slot × Nat} {s : Slot}
    (h : s ∈ (pos.foldl acnStep st).2.1) :
    ∃ s0 ∈ st.2.1, SameShape s s0 := by
  induction pos generalizing st with
  | nil => exact ⟨s, h, rfl, rfl, rfl⟩
  | cons rc pos ih =>
    rw [List.foldl_cons] at h
    rcases ih h with ⟨s1, hs1, hshape1⟩
    rcases acnStep_slots hs1 with ⟨s0, hs0, hshape0⟩
    exact ⟨s0, hs0, hshape1.1.trans hshape0.1, hshape1.2.1.trans hshape0.2.1,
      hshape1.2.2.trans hshape0.2.2⟩

theorem acnFold_letter (pos : List (Nat × Nat))
    (st : List (List GridCell) × List Slot × Nat) (r c : Nat) :
    (cellAtL (pos.foldl acnStep st).1 r c).letter = (cellAtL st.1 r c).letter := by
  induction pos generalizing st with
  | nil => rfl
  | cons rc pos ih =>
    rw [List.foldl_cons]
    rw [ih]
    exact acnStep_letter st rc r c

theorem initCells_letter (m : Mask) (r c : Nat) :
    (cellAtL (initCells m) r c).letter = none := by
  unfold cellAtL initCells
  rw [List.getElem?_map]
  cases (List.range gridSize)[r]? with
  | none => rfl
  | some rr =>
    simp only [Option.map_some, Option.map_some', Option.some_bind]
    rw [List.getElem?_map]
    cases (List.range gridSize)[c]? with
    | none => rfl
    | some cc => rfl

theorem buildGrid_cells (m : Mask) :
    (buildGrid m).cells =
      (acnPositions.foldl acnStep (initCells m, detectSlots m, 1)).1 := by
  simp only [buildGrid, assignClueNumbers]

theorem buildGrid_slots (m : Mask) :
    (buildGrid m).slots =
      (acnPositions.foldl acnStep (initCells m, detectSlots m, 1)).2.1 := by
  simp only [buildGrid, assignClueNumbers]

theorem buildGrid_letter (m : Mask) (r c : Nat) :
    (cellAtL (buildGrid m).cells r c).letter = none := by
  rw [buildGrid_cells]
  rw [acnFold_letter]
  exact initCells_letter m r c

theorem buildGrid_slot_shape {m : Mask} {s : Slot}
    (h : s ∈ (buildGrid m).slots) :
    s.pattern = List.replicate s.length wildcard ∧
      s.cells.length = s.length := by
  rw [buildGrid_slots] at h
  rcases acnFold_slots h with ⟨s0, hs0, hpat, hcells, hlen⟩
  rcases detectSlots_shape hs0 with ⟨h1, h2⟩
  rw [hpat, hcells, hlen]
  exact ⟨h1, h2⟩

theorem patternInv_buildGrid (m : Mask) : PatternInv (buildGrid m) := by
  intro s hs
  rcases buildGrid_slot_shape hs with ⟨hpat, hlen⟩
  rw [hpat]
  unfold slotView
  rw [← hlen]
  exact (List.map_eq_replicate_iff.mpr (fun p _ => by
    unfold cellAt
    rw [buildGrid_letter]
    rfl)).symm

/-- The grid operations a solver performs between pattern refreshes. -/
inductive GridOp where
  | place (w : List Char) (s : Slot)
  | remove (s : Slot)

def applyOp (g : Grid) (op : GridOp) : Grid :=
  match op with
  | .place w s => placeWord w s g
  | .remove s => removeWord s g

/-- C2: after `buildGrid` and any finite sequence of `placeWord` /
`removeWord` calls (with or without the length precondition: a mismatched
`placeWord` throws before mutating, leaving the state unchanged), every
slot's pattern equals the letters of its cells with the wildcard where a
cell has no letter. -/
theorem C2_pattern_invariant (m : Mask) (ops : List GridOp) :
    PatternInv (ops.foldl applyOp (buildGrid m)) := by
  have step : ∀ g op, PatternInv g → PatternInv (applyOp g op) := by
    intro g op h
    cases op with
    | place w s => exact patternInv_placeWord w s g h
    | remove s => exact patternInv_removeWord s g
  have main : ∀ (l : List GridOp) (g : Grid),
      PatternInv g → PatternInv (l.foldl applyOp g) := by
    intro l
    induction l with
    | nil => exact fun g h => h
    | cons op l ih => exact fun g h => ih _ (step g op h)
  exact main ops _ (patternInv_buildGrid m)

end Crossword

namespace Crossword

/-! ### Claim C4: `removeWord` and shared cells -/

/-- No slot other than `slot` (by id) covers the cell `p`. -/
def Uncovered (g : Grid) (slot : Slot) (p : Coord) : Prop :=
  ∀ t ∈ g.slots, t.id ≠ slot.id → p ∉ t.cells

instance (g : Grid) (slot : Slot) (p : Coord) : Decidable (Uncovered g slot p) :=
  List.decidableBAll _ g.slots

theorem uncovered_iff (g : Grid) (slot : Slot) (p : Coord) :
    (g.slots.filter (fun s =>
        s.id != slot.id && s.cells.any (fun q => q == p))).isEmpty = true ↔
      Uncovered g slot p := by
  rw [List.isEmpty_iff, List.filter_eq_nil_iff]
  constructor
  · intro h t ht hid hpin
    have hb := h t ht
    rw [Bool.and_eq_true] at hb
    push_neg at hb
    have := hb (by simpa using hid)
    exact this (List.any_eq_true.mpr ⟨p, hpin, by simp⟩)
  · intro h t ht
    rw [Bool.and_eq_true]
    rintro ⟨h1, h2⟩
    rw [List.any_eq_true] at h2
    rcases h2 with ⟨q, hq, hqp⟩
    have hqp' : q = p := by simpa using hqp
    exact h t ht (by simpa using h1) (hqp' ▸ hq)

/-- What `removeWord`'s clearing loop does to any cell read: the letter is
cleared exactly at the loop's cells that no other slot covers. -/
theorem removeFold_read (g : Grid) (slot : Slot) (mem : List Coord)
    (cs : List (List GridCell)) (p : Coord) :
    ((mem.foldl (removeStep g slot) cs)[p.row]?.bind (fun row => row[p.col]?)) =
      (cs[p.row]?.bind (fun row => row[p.col]?)).map
        (fun cell => if p ∈ mem ∧ Uncovered g slot p then
          { cell with letter := none } else cell) := by
  induction mem generalizing cs with
  | nil =>
    rw [List.foldl_nil]
    cases hopt : cs[p.row]?.bind (fun row => row[p.col]?) with
    | none => rfl
    | some cell =>
      rw [Option.map_some']
      rw [if_neg (fun hc => List.not_mem_nil p hc.1)]
  | cons q mem ih =>
    rw [List.foldl_cons, ih]
    unfold removeStep
    by_cases hunc : Uncovered g slot q
    · rw [if_pos ((uncovered_iff g slot q).mpr hunc)]
      rw [getElem?_modifyCell]
      rw [Option.map_map]
      cases hopt : cs[p.row]?.bind (fun row => row[p.col]?) with
      | none => rfl
      | some cell =>
        simp only [Option.map_some', Function.comp_apply]
        by_cases hpq : p = q
        · have hcond : q.row = p.row ∧ q.col = p.col := ⟨by rw [hpq], by rw [hpq]⟩
          have hUp : Uncovered g slot p := by rw [hpq]; exact hunc
          have hmem : p ∈ q :: mem := List.mem_cons.mpr (Or.inl hpq)
          rw [if_pos hcond]
          by_cases hm : p ∈ mem ∧ Uncovered g slot p
          · rw [if_pos hm, if_pos ⟨hmem, hUp⟩]
          · rw [if_neg hm, if_pos ⟨hmem, hUp⟩]
        · have hne : ¬(q.row = p.row ∧ q.col = p.col) := by
            intro hc
            exact hpq (by cases p; cases q; simp_all)
          rw [if_neg hne]
          by_cases hm : p ∈ mem ∧ Uncovered g slot p
          · rw [if_pos hm, if_pos ⟨List.mem_cons_of_mem q hm.1, hm.2⟩]
          · rw [if_neg hm, if_neg (by
              rintro ⟨hmm, hu⟩
              rcases List.mem_cons.mp hmm with h | h
              · exact hpq h
              · exact hm ⟨h, hu⟩)]
    · rw [if_neg (fun h => hunc ((uncovered_iff g slot q).mp h))]
      cases hopt : cs[p.row]?.bind (fun row => row[p.col]?) with
      | none => rfl
      | some cell =>
        simp only [Option.map_some']
        by_cases hpq : p = q
        · have hUq : ¬ Uncovered g slot p := by rw [hpq]; exact hunc
          rw [if_neg (fun h => hUq h.2), if_neg (fun h => hUq h.2)]
        · by_cases hm : p ∈ mem ∧ Uncovered g slot p
          · rw [if_pos hm, if_pos ⟨List.mem_cons_of_mem q hm.1, hm.2⟩]
          · rw [if_neg hm, if_neg (by
              rintro ⟨hmm, hu⟩
              rcases List.mem_cons.mp hmm with h | h
              · exact hpq h
              · exact hm ⟨h, hu⟩)]

/-- C4 counterexample: on the §8 mask place `cat` in the across slot (the
crossing down slot has no word placed — its pattern still contains a
wildcard), then remove the across word.  The shared cell (0,0) keeps its
letter `c`, although the claim requires it to be cleared because no other
*currently-placed* slot covers it. -/
theorem C4_counterexample :
    (∀ t ∈ (placeWord "cat".toList ((buildGrid m0).slots.getD 0 defaultSlot)
        (buildGrid m0)).slots,
      t.id ≠ ((buildGrid m0).slots.getD 0 defaultSlot).id →
        wildcard ∈ t.pattern) ∧
    (cellAt (removeWord ((buildGrid m0).slots.getD 0 defaultSlot)
        (placeWord "cat".toList ((buildGrid m0).slots.getD 0 defaultSlot)
          (buildGrid m0)))
      ⟨0, 0⟩).letter = some 'c' := by decide

/-- C4 amended: `removeWord(slot, grid)` clears a cell's letter exactly
when the cell belongs to the removed slot and no other slot — placed or
not — covers it; all other letters (including every cell outside the
slot) are unchanged, and all patterns are refreshed afterwards. -/
theorem C4_removeWord_cells (g : Grid) (s : Slot) (p : Coord) :
    ((cellAt (removeWord s g) p).letter =
        if p ∈ s.cells ∧ Uncovered g s p then none
        else (cellAt g p).letter) ∧
      PatternInv (removeWord s g) := by
  refine ⟨?_, patternInv_removeWord s g⟩
  have hcells : (removeWord s g).cells = s.cells.foldl (removeStep g s) g.cells := rfl
  unfold cellAt cellAtL
  rw [hcells, removeFold_read]
  cases hopt : g.cells[p.row]?.bind (fun row => row[p.col]?) with
  | none =>
    simp only [Option.map_none', Option.getD_none]
    split <;> rfl
  | some cell =>
    simp only [Option.map_some', Option.getD_some]
    split <;> rfl

end Crossword

namespace Crossword

/-! ### Claim C6: MRV slot selection (`CrosswordGenerator.selectSlotMRV`) -/

/-- The loop condition of `selectSlotMRV`:
`candidateCount < minCandidates || (candidateCount === minCandidates &&
intersectionCount > maxIntersections)`, with `minCandidates = Infinity`
modelled as `none` (every count is below `Infinity`, and
`count === Infinity` is false). -/
def mrvBetter (minC : Option Nat) (maxI : Int) (count : Nat) (ic : Int) :
    Prop :=
  (match minC with
   | none => True
   | some m => count < m) ∨ (minC = some count ∧ maxI < ic)

instance (minC : Option Nat) (maxI : Int) (count : Nat) (ic : Int) :
    Decidable (mrvBetter minC maxI count ic) := by
  unfold mrvBetter
  cases minC <;> simp <;> infer_instance

/-- The `selectSlotMRV` loop over the remaining slots, carrying
`bestSlot` / `minCandidates` / `maxIntersections`. -/
def selectSlotMRVAux (all : List Slot) : List Slot → Option Slot →
    Option Nat → Int → Option Slot
  | [], best, _, _ => best
  | s :: rest, best, minC, maxI =>
    if wildcard ∉ s.pattern then selectSlotMRVAux all rest best minC maxI
    else if s.candidates.length = 0 then some s
    else if mrvBetter minC maxI s.candidates.length
        ((getIntersectingSlots s all).length : Int) then
      selectSlotMRVAux all rest (some s) (some s.candidates.length)
        ((getIntersectingSlots s all).length : Int)
    else selectSlotMRVAux all rest best minC maxI

/-- `CrosswordGenerator.selectSlotMRV`: pick the unfilled slot with the
fewest candidates, ties broken towards more intersections; a slot with
zero candidates is returned immediately; `null` when no unfilled slot
remains. -/
def selectSlotMRV (g : Grid) : Option Slot :=
  selectSlotMRVAux g.slots g.slots none none (-1)

/-- Loop invariant of `selectSlotMRV`: the running best (when present) is
an unfilled processed slot with the minimum candidate count so far,
maximal intersection count among the tied ones, and the tracked numbers
are its own. -/
def MRVInv (all processed : List Slot) (best : Option Slot)
    (minC : Option Nat) (maxI : Int) : Prop :=
  match best with
  | none => minC = none ∧ maxI = -1 ∧ ∀ t ∈ processed, wildcard ∉ t.pattern
  | some b =>
      b ∈ processed ∧ wildcard ∈ b.pattern ∧
      minC = some b.candidates.length ∧
      maxI = ((getIntersectingSlots b all).length : Int) ∧
      (∀ t ∈ processed, wildcard ∈ t.pattern →
        b.candidates.length ≤ t.candidates.length) ∧
      (∀ t ∈ processed, wildcard ∈ t.pattern →
        t.candidates.length = b.candidates.length →
        (getIntersectingSlots t all).length ≤
          (getIntersectingSlots b all).length)

theorem selectAux_post (all : List Slot) (rem : List Slot) :
    ∀ (processed : List Slot) (best : Option Slot) (minC : Option Nat)
      (maxI : Int),
    (∀ s ∈ rem, wildcard ∈ s.pattern → s.candidates ≠ []) →
    MRVInv all processed best minC maxI →
    (selectSlotMRVAux all rem best minC maxI = none →
      ∀ t ∈ processed ++ rem, wildcard ∉ t.pattern) ∧
    (∀ b, selectSlotMRVAux all rem best minC maxI = some b →
      b ∈ processed ++ rem ∧ wildcard ∈ b.pattern ∧
      (∀ t ∈ processed ++ rem, wildcard ∈ t.pattern →
        b.candidates.length ≤ t.candidates.length) ∧
      (∀ t ∈ processed ++ rem, wildcard ∈ t.pattern →
        t.candidates.length = b.candidates.length →
        (getIntersectingSlots t all).length ≤
          (getIntersectingSlots b all).length)) := by
  induction rem with
  | nil =>
    intro processed best minC maxI _ hinv
    rw [List.append_nil]
    cases best with
    | none =>
      refine ⟨fun _ => hinv.2.2, ?_⟩
      intro b hb
      exact absurd hb (by simp [selectSlotMRVAux])
    | some b0 =>
      refine ⟨fun h => absurd h (by simp [selectSlotMRVAux]), ?_⟩
      intro b hb
      have : b0 = b := by simpa [selectSlotMRVAux] using hb
      subst this
      exact ⟨hinv.1, hinv.2.1, hinv.2.2.2.2.1, hinv.2.2.2.2.2⟩
  | cons s rest ih =>
    intro processed best minC maxI hrem hinv
    have hrem' : ∀ u ∈ rest, wildcard ∈ u.pattern → u.candidates ≠ [] :=
      fun u hu => hrem u (List.mem_cons_of_mem s hu)
    have happ : processed ++ s :: rest = (processed ++ [s]) ++ rest := by
      simp
    rw [happ]
    by_cases h1 : wildcard ∉ s.pattern
    · have hstep : selectSlotMRVAux all (s :: rest) best minC maxI =
          selectSlotMRVAux all rest best minC maxI := by
        rw [selectSlotMRVAux]
        rw [if_pos h1]
      rw [hstep]
      apply ih (processed ++ [s]) best minC maxI hrem'
      cases best with
      | none =>
        refine ⟨hinv.1, hinv.2.1, ?_⟩
        intro t ht
        rcases List.mem_append.mp ht with h | h
        · exact hinv.2.2 t h
        · rw [List.mem_singleton.mp h]
          exact h1
      | some b0 =>
        refine ⟨List.mem_append_left _ hinv.1, hinv.2.1, hinv.2.2.1,
          hinv.2.2.2.1, ?_, ?_⟩
        · intro t ht hw
          rcases List.mem_append.mp ht with h | h
          · exact hinv.2.2.2.2.1 t h hw
          · rw [List.mem_singleton.mp h] at hw
            exact absurd hw h1
        · intro t ht hw
          rcases List.mem_append.mp ht with h | h
          · exact hinv.2.2.2.2.2 t h hw
          · rw [List.mem_singleton.mp h] at hw
            exact absurd hw h1
    · push_neg at h1
      have hcnt : s.candidates.length ≠ 0 := by
        intro h0
        exact hrem s (List.mem_cons_self s rest) h1 (List.eq_nil_of_length_eq_zero h0)
      by_cases hC : mrvBetter minC maxI s.candidates.length
          ((getIntersectingSlots s all).length : Int)
      · have hstep : selectSlotMRVAux all (s :: rest) best minC maxI =
            selectSlotMRVAux all rest (some s) (some s.candidates.length)
              ((getIntersectingSlots s all).length : Int) := by
          rw [selectSlotMRVAux]
          rw [if_neg (by simpa using h1), if_neg hcnt, if_pos hC]
        rw [hstep]
        apply ih (processed ++ [s]) (some s) (some s.candidates.length)
          ((getIntersectingSlots s all).length : Int) hrem'
        refine ⟨List.mem_append_right _ (List.mem_singleton_self s), h1,
          rfl, rfl, ?_, ?_⟩
        · intro t ht hw
          rcases List.mem_append.mp ht with h | h
          · cases best with
            | none => exact absurd hw (hinv.2.2 t h)
            | some b0 =>
              have hble := hinv.2.2.2.2.1 t h hw
              rcases hC with hlt | ⟨heq, _⟩
              · rw [hinv.2.2.1] at hlt
                simp at hlt
                omega
              · rw [hinv.2.2.1] at heq
                have : s.candidates.length = b0.candidates.length := by
                  simpa using heq.symm
                omega
          · rw [List.mem_singleton.mp h]
        · intro t ht hw hlen
          rcases List.mem_append.mp ht with h | h
          · cases best with
            | none => exact absurd hw (hinv.2.2 t h)
            | some b0 =>
              have hble := hinv.2.2.2.2.1 t h hw
              rcases hC with hlt | ⟨heq, hic⟩
              · rw [hinv.2.2.1] at hlt
                simp at hlt
                omega
              · rw [hinv.2.2.1] at heq
                have hbs : s.candidates.length = b0.candidates.length := by
                  simpa using heq.symm
                have htb := hinv.2.2.2.2.2 t h hw (by omega)
                rw [hinv.2.2.2.1] at hic
                omega
          · rw [List.mem_singleton.mp h]
      · have hstep : selectSlotMRVAux all (s :: rest) best minC maxI =
            selectSlotMRVAux all rest best minC maxI := by
          rw [selectSlotMRVAux]
          rw [if_neg (by simpa using h1), if_neg hcnt, if_neg hC]
        rw [hstep]
        apply ih (processed ++ [s]) best minC maxI hrem'
        cases best with
        | none =>
          exfalso
          apply hC
          rw [hinv.1]
          exact Or.inl trivial
        | some b0 =>
          have hnotlt : ¬ s.candidates.length < b0.candidates.length := by
            intro hlt
            apply hC
            rw [hinv.2.2.1]
            exact Or.inl (by simpa using hlt)
          refine ⟨List.mem_append_left _ hinv.1, hinv.2.1, hinv.2.2.1,
            hinv.2.2.2.1, ?_, ?_⟩
          · intro t ht hw
            rcases List.mem_append.mp ht with h | h
            · exact hinv.2.2.2.2.1 t h hw
            · rw [List.mem_singleton.mp h]
              omega
          · intro t ht hw hlen
            rcases List.mem_append.mp ht with h | h
            · exact hinv.2.2.2.2.2 t h hw hlen
            · rw [List.mem_singleton.mp h] at hlen ⊢
              have hnottie : ¬ ((getIntersectingSlots b0 all).length : Int) <
                  ((getIntersectingSlots s all).length : Int) := by
                intro hic
                apply hC
                rw [hinv.2.2.1, hinv.2.2.2.1]
                exact Or.inr ⟨by rw [hlen], hic⟩
              omega

/-- C6: under forward checking (every unfilled slot has candidates),
`selectSlotMRV` returns `null` iff no slot is unfilled; otherwise it
returns an unfilled slot of the grid whose candidate count is minimal
among unfilled slots and whose intersection count is maximal among those
tied at that minimum. -/
theorem C6_selectSlotMRV (g : Grid)
    (hpre : ∀ s ∈ g.slots, wildcard ∈ s.pattern → s.candidates ≠ []) :
    (selectSlotMRV g = none ↔ ∀ s ∈ g.slots, wildcard ∉ s.pattern) ∧
    (∀ b, selectSlotMRV g = some b →
      b ∈ g.slots ∧ wildcard ∈ b.pattern ∧
      (∀ t ∈ g.slots, wildcard ∈ t.pattern →
        b.candidates.length ≤ t.candidates.length) ∧
      (∀ t ∈ g.slots, wildcard ∈ t.pattern →
        t.candidates.length = b.candidates.length →
        (getIntersectingSlots t g.slots).length ≤
          (getIntersectingSlots b g.slots).length)) := by
  have hpost := selectAux_post g.slots g.slots [] none none (-1) hpre
    (by exact ⟨rfl, rfl, by simp⟩)
  rw [List.nil_append] at hpost
  refine ⟨⟨hpost.1, ?_⟩, hpost.2⟩
  intro hall
  cases hres : selectSlotMRV g with
  | none => rfl
  | some b =>
    have := hpost.2 b hres
    exact absurd this.2.1 (hall b this.1)

/-- Concrete grid for the C6 witness: two crossing unfilled slots with
2 and 1 candidates respectively. -/
def mrvG : Grid :=
  { cells := [],
    slots :=
      [{ id := 0, direction := Dir.across, startRow := 0, startCol := 0,
         length := 3, cells := [⟨0,0⟩, ⟨0,1⟩, ⟨0,2⟩], number := 1,
         pattern := "???".toList,
         candidates := ["cat".toList, "car".toList] },
       { id := 1, direction := Dir.down, startRow := 0, startCol := 0,
         length := 3, cells := [⟨0,0⟩, ⟨1,0⟩, ⟨2,0⟩], number := 1,
         pattern := "???".toList,
         candidates := ["cab".toList] }] }

/-- Witness for C6 at a concrete grid. -/
theorem C6_witness :
    (selectSlotMRV mrvG = none ↔ ∀ s ∈ mrvG.slots, wildcard ∉ s.pattern) ∧
    (∀ b, selectSlotMRV mrvG = some b →
      b ∈ mrvG.slots ∧ wildcard ∈ b.pattern ∧
      (∀ t ∈ mrvG.slots, wildcard ∈ t.pattern →
        b.candidates.length ≤ t.candidates.length) ∧
      (∀ t ∈ mrvG.slots, wildcard ∈ t.pattern →
        t.candidates.length = b.candidates.length →
        (getIntersectingSlots t mrvG.slots).length ≤
          (getIntersectingSlots b mrvG.slots).length)) :=
  C6_selectSlotMRV mrvG (by decide)

end Crossword

namespace Crossword

/-! ## The MRV generator (`CrosswordGenerator` of the fillGrid variant)

`fillGrid` is recursive; the shallow embedding uses explicit fuel
(`none` = fuel exhausted) and returns the final grid alongside the
boolean.  The per-attempt wall-clock timeout check can only turn a result
into `false` early; it is modelled as never firing, which only enlarges
the set of successful runs, so the no-repeat and termination claims
proved here cover every run of the source.  The word-bank queries go
through the pure core `findWordsMatchingPure`: by `findWordsMatching_fst`
the cached `findWordsMatching` returns the same list in every reachable
cache state.  Backtracking (`saveSlotPatterns` / `restoreSlotPatterns` +
`removeWord`) restores exactly the pre-placement state on the solver's
reachable states, so the model resumes from the prior grid value. -/

/-- `CrosswordGenerator.updateAllCandidates`: refresh each unfilled
slot's candidates with the bank's pattern matches that also pass
`isValidPlacement`; a filled slot gets an empty candidate list. -/
def updateAllCandidates (bank : WordBank) (g : Grid) : Grid :=
  { g with
    slots := g.slots.map (fun slot =>
      if wildcard ∈ slot.pattern then
        { slot with
          candidates :=
            ((findWordsMatchingPure bank.entries slot.length
                slot.pattern).map (fun e => e.word)).filter
              (fun w => isValidPlacement w slot g) }
      else { slot with candidates := [] }) }

/-- The candidate loop of `fillGrid`: skip used words and invalid
placements, place, recurse (`recur` is the rest of the search at the
remaining fuel), and on recursive failure resume from the pre-placement
grid (which the source's snapshot restore reproduces). -/
def tryWords (recur : Grid → List (List Char) → Option (Bool × Grid))
    (g : Grid) (target : Slot) (used : List (List Char)) :
    List (List Char) → Option (Bool × Grid)
  | [] => some (false, g)
  | w :: ws =>
    if w ∈ used then tryWords recur g target used ws
    else if ¬ (isValidPlacement w target g = true) then
      tryWords recur g target used ws
    else
      match recur (placeWord w target g) (w :: used) with
      | none => none
      | some (true, gf) => some (true, gf)
      | some (false, _) => tryWords recur g target used ws

/-- `CrosswordGenerator.fillGrid` with explicit fuel: refresh candidates,
forward-check every slot, pick the MRV slot (success when none), and try
its top five candidates. -/
def fillGridF (bank : WordBank) : Nat → Grid → List (List Char) →
    Option (Bool × Grid)
  | 0, _, _ => none
  | fuel + 1, g, used =>
    if (updateAllCandidates bank g).slots.any
        (fun s => s.candidates.isEmpty) then
      some (false, updateAllCandidates bank g)
    else
      match selectSlotMRV (updateAllCandidates bank g) with
      | none => some (true, updateAllCandidates bank g)
      | some target =>
          tryWords (fun g2 u2 => fillGridF bank fuel g2 u2)
            (updateAllCandidates bank g) target used
            (target.candidates.take 5)

/-- One entry of the puzzle result (`num`, uppercase `answer`, position,
`length`, `pattern`). -/
structure PuzzleEntry where
  num : Nat
  answer : List Char
  row : Nat
  col : Nat
  length : Nat
  pattern : List Char
  deriving DecidableEq, Repr

/-- The assembled puzzle.  The source's `meta.generationTime`
(`Date.now()`) is a wall-clock stamp outside this embedding. -/
structure CrosswordPuzzle where
  grid : List (List (List Char))
  across : List PuzzleEntry
  down : List PuzzleEntry
  templateId : List Char
  seed : Option Int
  deriving DecidableEq, Repr

/-- `CrosswordGenerator.buildPuzzleResult`: emit the 5×5 letter grid
(`'#'` for black cells, the letter or the empty string otherwise) and the
across/down entries with uppercased patterns as answers.  The source
performs no completeness check before assembling. -/
def buildPuzzleResult (g : Grid) (templateId : List Char)
    (seed : Option Int) : CrosswordPuzzle :=
  { grid := (List.range gridSize).map (fun r =>
      (List.range gridSize).map (fun c =>
        let cell := cellAtL g.cells r c
        if cell.ctype = '#' then ['#']
        else
          match cell.letter with
          | some ch => [ch]
          | none => [])),
    across := (acrossSlots g).map (fun slot =>
      { num := slot.number, answer := slot.pattern.map Char.toUpper,
        row := slot.startRow, col := slot.startCol, length := slot.length,
        pattern := slot.pattern }),
    down := (downSlots g).map (fun slot =>
      { num := slot.number, answer := slot.pattern.map Char.toUpper,
        row := slot.startRow, col := slot.startCol, length := slot.length,
        pattern := slot.pattern }),
    templateId := templateId,
    seed := seed }

end Crossword

namespace Crossword

/-! ### Claim C3: no repeated word in a successful fill -/

theorem updateAllCandidates_slots (bank : WordBank) (g : Grid) :
    (updateAllCandidates bank g).slots = g.slots.map (fun slot =>
      if wildcard ∈ slot.pattern then
        { slot with
          candidates :=
            ((findWordsMatchingPure bank.entries slot.length
                slot.pattern).map (fun e => e.word)).filter
              (fun w => isValidPlacement w slot g) }
      else { slot with candidates := [] }) := rfl

theorem placeWord_slots_length (w : List Char) (s : Slot) (g : Grid) :
    (placeWord w s g).slots.length = g.slots.length := by
  unfold placeWord
  split
  · rfl
  · exact List.length_map _ _

theorem tryWords_true {recur : Grid → List (List Char) →
      Option (Bool × Grid)}
    {g : Grid} {target : Slot} {used : List (List Char)}
    {ws : List (List Char)} {gf : Grid}
    (h : tryWords recur g target used ws = some (true, gf)) :
    ∃ w u2, recur (placeWord w target g) u2 = some (true, gf) := by
  induction ws with
  | nil => exact absurd h (by simp [tryWords])
  | cons w ws ih =>
    rw [tryWords] at h
    split at h
    · exact ih h
    · split at h
      · exact ih h
      · split at h
        · exact absurd h (by simp)
        · rename_i gf2 heq
          have h' : gf2 = gf := by
            simpa using congrArg Prod.snd (Option.some.inj h)
          rw [h'] at heq
          exact ⟨w, w :: used, heq⟩
        · exact ih h

/-- `updateAllCandidates` gives every filled slot an empty candidate
list (the patterns themselves are untouched). -/
theorem updateAllCandidates_filled_empty {bank : WordBank} {g : Grid}
    {s' : Slot} (h : s' ∈ (updateAllCandidates bank g).slots)
    (hf : wildcard ∉ s'.pattern) : s'.candidates = [] := by
  rw [updateAllCandidates_slots] at h
  rcases List.mem_map.mp h with ⟨s, _, rfl⟩
  by_cases hw : wildcard ∈ s.pattern
  · rw [if_pos hw] at hf
    exact absurd hw hf
  · rw [if_neg hw]

/-- The central fact behind C3: `fillGrid` can only return `true` when the
grid has no slots at all.  Reason: the forward check inspects every slot,
`updateAllCandidates` gives every filled slot an empty candidate list,
and success requires `selectSlotMRV` to find every slot filled. -/
theorem fillGridF_true_nil (bank : WordBank) : ∀ (fuel : Nat) (g : Grid)
    (used : List (List Char)) (gf : Grid),
    fillGridF bank fuel g used = some (true, gf) →
    g.slots = [] ∧ gf.slots = [] := by
  intro fuel
  induction fuel with
  | zero => intro g used gf h; exact absurd h (by simp [fillGridF])
  | succ fuel ih =>
    intro g used gf h
    rw [fillGridF] at h
    split at h
    · exact absurd h (by simp)
    · next hfc =>
      have hfc' : ∀ s ∈ (updateAllCandidates bank g).slots,
          ¬ s.candidates.isEmpty = true := by
        intro s hs hemp
        exact hfc (List.any_eq_true.mpr ⟨s, hs, hemp⟩)
      split at h
      · next hsel =>
        have hgf : gf = updateAllCandidates bank g := by
          rcases Option.some.inj h with h'
          exact (congrArg Prod.snd h').symm
        have hpre : ∀ s ∈ (updateAllCandidates bank g).slots,
            wildcard ∈ s.pattern → s.candidates ≠ [] := by
          intro s hs _
          intro hnil
          exact hfc' s hs (by rw [hnil]; rfl)
        have hpost := selectAux_post (updateAllCandidates bank g).slots
          (updateAllCandidates bank g).slots [] none none (-1) hpre
          ⟨rfl, rfl, by simp⟩
        rw [List.nil_append] at hpost
        have hfilled := hpost.1 hsel
        have hnil : g.slots = [] := by
          cases hgs : g.slots with
          | nil => rfl
          | cons s rest =>
            exfalso
            have hne : (updateAllCandidates bank g).slots ≠ [] := by
              rw [updateAllCandidates_slots, hgs]
              simp
            obtain ⟨s', hs'⟩ := List.exists_mem_of_ne_nil _ hne
            have hemp := updateAllCandidates_filled_empty hs'
              (hfilled s' hs')
            exact hfc' s' hs' (by rw [hemp]; rfl)
        refine ⟨hnil, ?_⟩
        rw [hgf, updateAllCandidates_slots, hnil]
        rfl
      · next target hsel =>
        exfalso
        rcases tryWords_true h with ⟨w, u2, hrec⟩
        have hrec' := (ih _ _ _ hrec).1
        have hlen := placeWord_slots_length w target
          (updateAllCandidates bank g)
        rw [hrec'] at hlen
        have hnil' : (updateAllCandidates bank g).slots = [] :=
          List.eq_nil_of_length_eq_zero hlen.symm
        rw [selectSlotMRV, hnil'] at hsel
        exact absurd hsel (by simp [selectSlotMRVAux])

/-- C3: whenever the recursive fill succeeds on a grid built from a mask,
no two distinct slots of the resulting grid carry the same completed
pattern string.  (In fact success forces the slot list to be empty: the
forward check rejects any grid with a filled slot, because
`updateAllCandidates` gives filled slots empty candidate lists, so the
invariant holds vacuously — see `fillGridF_true_nil`.) -/
theorem C3_no_repeat (bank : WordBank) (mask : Mask) (fuel : Nat)
    (used : List (List Char)) (gf : Grid)
    (h : fillGridF bank fuel (buildGrid mask) used = some (true, gf)) :
    ∀ s1 ∈ gf.slots, ∀ s2 ∈ gf.slots, s1 ≠ s2 → s1.pattern ≠ s2.pattern := by
  have hnil := (fillGridF_true_nil bank fuel (buildGrid mask) used gf h).2
  intro s1 hs1
  rw [hnil] at hs1
  exact absurd hs1 (List.not_mem_nil s1)

/-- All-black mask: the one grid shape on which `fillGrid` succeeds. -/
def mblack : Mask := ⟨List.replicate 5 (List.replicate 5 '#')⟩

/-- Witness for C3: on the all-black mask the fill succeeds and the
no-repeat property holds for the resulting grid. -/
theorem C3_witness :
    fillGridF (initializeBank []) 1 (buildGrid mblack) [] =
        some (true, updateAllCandidates (initializeBank []) (buildGrid mblack)) ∧
      (∀ s1 ∈ (updateAllCandidates (initializeBank [])
          (buildGrid mblack)).slots,
        ∀ s2 ∈ (updateAllCandidates (initializeBank [])
            (buildGrid mblack)).slots,
          s1 ≠ s2 → s1.pattern ≠ s2.pattern) :=
  ⟨by decide,
    C3_no_repeat (initializeBank []) mblack 1 [] _ (by decide)⟩

end Crossword

namespace Crossword

/-! ### Claim C7: assembling the final puzzle -/

/-- C7 counterexample: `buildPuzzleResult` invoked on the freshly built
(entirely unsolved) §8 grid does not raise any error — it returns a
well-formed puzzle whose across answer is the all-wildcard string. -/
theorem C7_counterexample :
    (∃ s ∈ (buildGrid m0).slots, wildcard ∈ s.pattern) ∧
    (buildPuzzleResult (buildGrid m0) "t".toList none).across =
      [{ num := 1, answer := "???".toList, row := 0, col := 0,
         length := 3, pattern := "???".toList }] := by decide

/-- C7 amended: the puzzle-building transform never fails — on any grid,
complete or not, it emits one entry per across/down slot whose answer is
the uppercased current pattern (so wildcards are simply carried into the
answers of an incomplete grid), and each of the 25 output cells is the
black marker `#` exactly for black cells and the cell's letter (empty
when absent) otherwise. -/
theorem C7_buildPuzzleResult_total (g : Grid) (tid : List Char)
    (sd : Option Int) :
    ((buildPuzzleResult g tid sd).across.length = (acrossSlots g).length ∧
      (buildPuzzleResult g tid sd).down.length = (downSlots g).length) ∧
    (∀ e ∈ (buildPuzzleResult g tid sd).across ++
        (buildPuzzleResult g tid sd).down,
      ∃ s ∈ g.slots, e.answer = s.pattern.map Char.toUpper ∧
        e.pattern = s.pattern ∧ e.num = s.number ∧ e.length = s.length) ∧
    ((∀ s ∈ g.slots, wildcard ∉ s.pattern) →
      ∀ e ∈ (buildPuzzleResult g tid sd).across ++
          (buildPuzzleResult g tid sd).down,
        wildcard ∉ e.pattern) ∧
    (∀ r c : Nat, r < gridSize → c < gridSize →
      ((buildPuzzleResult g tid sd).grid[r]?.bind (fun row => row[c]?)) =
        some (if (cellAtL g.cells r c).ctype = '#' then ['#']
          else
            match (cellAtL g.cells r c).letter with
            | some ch => [ch]
            | none => [])) := by
  refine ⟨⟨List.length_map _ _, List.length_map _ _⟩, ?_, ?_, ?_⟩
  · intro e he
    rcases List.mem_append.mp he with h | h
    · rcases List.mem_map.mp h with ⟨slot, hslot, rfl⟩
      exact ⟨slot, (List.mem_filter.mp hslot).1, rfl, rfl, rfl, rfl⟩
    · rcases List.mem_map.mp h with ⟨slot, hslot, rfl⟩
      exact ⟨slot, (List.mem_filter.mp hslot).1, rfl, rfl, rfl, rfl⟩
  · intro hsolved e he
    rcases List.mem_append.mp he with h | h
    · rcases List.mem_map.mp h with ⟨slot, hslot, rfl⟩
      exact hsolved slot (List.mem_filter.mp hslot).1
    · rcases List.mem_map.mp h with ⟨slot, hslot, rfl⟩
      exact hsolved slot (List.mem_filter.mp hslot).1
  · intro r c hr hc
    show ((List.range gridSize).map _)[r]?.bind _ = _
    rw [List.getElem?_map, List.getElem?_range hr]
    simp only [Option.map_some', Option.some_bind]
    rw [List.getElem?_map, List.getElem?_range hc]
    rfl

end Crossword

namespace Crossword

/-! ### Claim C5 (part 1): the MRV fill terminates

The measure is the number of unfilled slots: each placement fills the
selected slot and never unfills another, so recursion depth is bounded.
The invariant `SolverInv` collects the shape facts every grid built from
a mask enjoys and every solver step preserves. -/

/-- All bank entries are lowercase words (true of any initialized store,
see `initEntries_wordOk`); in particular no stored word contains the
wildcard. -/
def WordlikeBank (bank : WordBank) : Prop :=
  ∀ e ∈ bank.entries, e.word.all isLowerAlpha = true

/-- Number of slots whose pattern still contains a wildcard. -/
def countUnfilled (g : Grid) : Nat :=
  g.slots.countP (fun s => decide (wildcard ∈ s.pattern))

/-- Shape invariant maintained by the solver: patterns derive from cells,
the cell array is 5×5, slot cells are in bounds with consistent lengths,
and every written letter is a lowercase word character. -/
def SolverInv (g : Grid) : Prop :=
  PatternInv g ∧
  (g.cells.length = gridSize ∧ ∀ row ∈ g.cells, row.length = gridSize) ∧
  (∀ s ∈ g.slots, s.cells.length = s.length ∧ s.pattern.length = s.length ∧
    ∀ p ∈ s.cells, p.row < gridSize ∧ p.col < gridSize) ∧
  (∀ r c ch, (cellAtL g.cells r c).letter = some ch → isLowerAlpha ch = true)

theorem wildcard_not_lower : isLowerAlpha wildcard = false := rfl

theorem modifyCell_shape {cs : List (List GridCell)} {r c : Nat}
    {f : GridCell → GridCell}
    (h : cs.length = gridSize ∧ ∀ row ∈ cs, row.length = gridSize) :
    (modifyCell cs r c f).length = gridSize ∧
      ∀ row ∈ modifyCell cs r c f, row.length = gridSize := by
  unfold modifyCell
  refine ⟨by rw [List.length_modify]; exact h.1, ?_⟩
  intro row hrow
  rcases List.mem_iff_getElem?.mp hrow with ⟨j, hj⟩
  rw [List.getElem?_modify] at hj
  cases hcs : cs[j]? with
  | none => rw [hcs] at hj; exact absurd hj (by simp)
  | some row0 =>
    rw [hcs] at hj
    simp only [Option.map_some] at hj
    have hrow0 : row0.length = gridSize := h.2 row0 (List.getElem?_mem hcs)
    by_cases hr : r = j
    · rw [if_pos hr] at hj
      rcases Option.some.inj hj with rfl
      rw [List.length_modify]
      exact hrow0
    · rw [if_neg hr] at hj
      rcases Option.some.inj hj with rfl
      exact hrow0

theorem writeFold_shape {ps : List (Coord × Char)}
    {cs : List (List GridCell)}
    (h : cs.length = gridSize ∧ ∀ row ∈ cs, row.length = gridSize) :
    (ps.foldl writeStep cs).length = gridSize ∧
      ∀ row ∈ ps.foldl writeStep cs, row.length = gridSize := by
  induction ps generalizing cs with
  | nil => exact h
  | cons pc ps ih => exact ih (modifyCell_shape h)

/-- Reading after the write loop: a cell's letter is either untouched or
one of the written characters. -/
theorem writeFold_letter (ps : List (Coord × Char))
    (cs : List (List GridCell)) (r c : Nat) :
    (cellAtL (ps.foldl writeStep cs) r c).letter = (cellAtL cs r c).letter ∨
      ∃ pc ∈ ps, (cellAtL (ps.foldl writeStep cs) r c).letter = some pc.2 := by
  induction ps generalizing cs with
  | nil => exact Or.inl rfl
  | cons pc ps ih =>
    rw [List.foldl_cons]
    rcases ih (writeStep cs pc) with h | ⟨pc', hpc', h⟩
    · rw [h]
      unfold writeStep cellAtL
      rw [getElem?_modifyCell]
      cases hopt : cs[r]?.bind (fun row => row[c]?) with
      | none => exact Or.inl rfl
      | some cell =>
        simp only [Option.map_some', Option.getD_some]
        by_cases hc : pc.1.row = r ∧ pc.1.col = c
        · rw [if_pos hc]
          exact Or.inr ⟨pc, List.mem_cons_self pc ps, rfl⟩
        · rw [if_neg hc]
          exact Or.inl rfl
    · exact Or.inr ⟨pc', List.mem_cons_of_mem pc hpc', h⟩

/-- A letter present before the write loop is still present after. -/
theorem writeFold_isSome (ps : List (Coord × Char))
    (cs : List (List GridCell)) (r c : Nat)
    (h : (cellAtL cs r c).letter.isSome) :
    (cellAtL (ps.foldl writeStep cs) r c).letter.isSome := by
  induction ps generalizing cs with
  | nil => exact h
  | cons pc ps ih =>
    rw [List.foldl_cons]
    apply ih
    unfold cellAtL at h
    unfold writeStep cellAtL
    rw [getElem?_modifyCell]
    cases hopt : cs[r]?.bind (fun row => row[c]?) with
    | none => rw [hopt] at h; exact absurd h (by simp [defaultCell])
    | some cell =>
      rw [hopt] at h
      simp only [Option.map_some', Option.getD_some] at h ⊢
      split
      · simp
      · exact h

/-- Every coordinate actually written by the loop (in bounds) ends up
with a letter. -/
theorem writeFold_covers (ps : List (Coord × Char))
    (cs : List (List GridCell)) {p : Coord} {ch : Char}
    (hmem : (p, ch) ∈ ps)
    (hshape : cs.length = gridSize ∧ ∀ row ∈ cs, row.length = gridSize)
    (hr : p.row < gridSize) (hc : p.col < gridSize) :
    (cellAtL (ps.foldl writeStep cs) p.row p.col).letter.isSome := by
  induction ps generalizing cs with
  | nil => exact absurd hmem (List.not_mem_nil _)
  | cons pc ps ih =>
    rw [List.foldl_cons]
    rcases List.mem_cons.mp hmem with heq | hmem'
    · apply writeFold_isSome
      have hrow : ∃ row, cs[p.row]? = some row ∧ row.length = gridSize := by
        cases hcs : cs[p.row]? with
        | none =>
          exfalso
          rw [List.getElem?_eq_none_iff, hshape.1] at hcs
          omega
        | some row => exact ⟨row, rfl, hshape.2 row (List.getElem?_mem hcs)⟩
      rcases hrow with ⟨row, hcsrow, hrowlen⟩
      have hcell : ∃ cell, row[p.col]? = some cell := by
        cases hrc : row[p.col]? with
        | none =>
          exfalso
          rw [List.getElem?_eq_none_iff, hrowlen] at hrc
          omega
        | some cell => exact ⟨cell, rfl⟩
      rcases hcell with ⟨cell, hcellc⟩
      rw [← heq]
      unfold writeStep cellAtL
      rw [getElem?_modifyCell, hcsrow]
      simp only [Option.some_bind, hcellc, Option.map_some']
      rw [if_pos (by trivial)]
      simp
    · exact ih (writeStep cs pc) hmem' (modifyCell_shape hshape)

end Crossword

namespace Crossword

theorem countP_lt {α : Type _} {p q : α → Bool} : ∀ {l : List α},
    (∀ a ∈ l, p a = true → q a = true) → ∀ (x : α), x ∈ l → q x = true →
    ¬ p x = true → l.countP p < l.countP q := by
  intro l
  induction l with
  | nil => intro _ x hx; exact absurd hx (List.not_mem_nil x)
  | cons a l ih =>
    intro hpq x hx hqx hpx
    rw [List.countP_cons, List.countP_cons]
    rcases List.mem_cons.mp hx with hxa | hx'
    · rw [hxa] at hqx hpx
      rw [if_pos hqx, if_neg hpx]
      have := List.countP_mono_left (fun b hb => hpq b (List.mem_cons_of_mem a hb))
      omega
    · have hrec := ih (fun b hb => hpq b (List.mem_cons_of_mem a hb)) x hx' hqx hpx
      have : (if p a = true then 1 else 0) ≤ (if q a = true then 1 else 0) := by
        by_cases hpa : p a = true
        · rw [if_pos hpa, if_pos (hpq a (List.mem_cons_self a l) hpa)]
        · rw [if_neg hpa]
          omega
      omega

theorem mem_zip_left {α β : Type _} {a : α} : ∀ {l₁ : List α} {l₂ : List β},
    a ∈ l₁ → l₁.length ≤ l₂.length → ∃ b, (a, b) ∈ l₁.zip l₂ := by
  intro l₁
  induction l₁ with
  | nil => intro l₂ h; exact absurd h (List.not_mem_nil a)
  | cons a₁ l₁ ih =>
    intro l₂ h hlen
    cases l₂ with
    | nil => simp at hlen
    | cons b₁ l₂ =>
      rcases List.mem_cons.mp h with rfl | h'
      · exact ⟨b₁, List.mem_cons_self _ _⟩
      · rcases ih h' (by simpa using Nat.succ_le_succ_iff.mp hlen) with ⟨b, hb⟩
        exact ⟨b, List.mem_cons_of_mem _ hb⟩

/-- `updateAllCandidates` only rewrites `candidates` fields. -/
theorem uac_mem_inv {bank : WordBank} {g : Grid} {s' : Slot}
    (h : s' ∈ (updateAllCandidates bank g).slots) :
    ∃ s ∈ g.slots, s'.pattern = s.pattern ∧ s'.cells = s.cells ∧
      s'.length = s.length := by
  rw [updateAllCandidates_slots] at h
  rcases List.mem_map.mp h with ⟨s, hs, rfl⟩
  by_cases hw : wildcard ∈ s.pattern
  · rw [if_pos hw]
    exact ⟨s, hs, rfl, rfl, rfl⟩
  · rw [if_neg hw]
    exact ⟨s, hs, rfl, rfl, rfl⟩

theorem solverInv_uac (bank : WordBank) (g : Grid) (h : SolverInv g) :
    SolverInv (updateAllCandidates bank g) := by
  refine ⟨?_, h.2.1, ?_, h.2.2.2⟩
  · intro s' hs'
    rcases uac_mem_inv hs' with ⟨s, hs, hp, hc, _⟩
    rw [hp]
    have : slotView (updateAllCandidates bank g) s' =
        s'.cells.map (fun p => (cellAtL g.cells p.row p.col).letter.getD
          wildcard) := rfl
    rw [this, hc]
    exact h.1 s hs
  · intro s' hs'
    rcases uac_mem_inv hs' with ⟨s, hs, hp, hc, hl⟩
    rw [hp, hc, hl]
    exact h.2.2.1 s hs

theorem countUnfilled_uac (bank : WordBank) (g : Grid) :
    countUnfilled (updateAllCandidates bank g) = countUnfilled g := by
  unfold countUnfilled
  rw [updateAllCandidates_slots, List.countP_map]
  apply List.countP_congr
  intro s _
  simp only [Function.comp_apply]
  by_cases hw : wildcard ∈ s.pattern
  · rw [if_pos hw]
  · rw [if_neg hw]

/-- Candidates installed by `updateAllCandidates` on an unfilled slot are
bank words matching the slot's pattern. -/
theorem uac_target_candidates {bank : WordBank} {g : Grid} {target : Slot}
    (ht : target ∈ (updateAllCandidates bank g).slots)
    (hw : wildcard ∈ target.pattern) {w : List Char}
    (hwc : w ∈ target.candidates) :
    ∃ e ∈ bank.entries, w = e.word ∧ w.length = target.pattern.length := by
  rw [updateAllCandidates_slots] at ht
  rcases List.mem_map.mp ht with ⟨s, _, rfl⟩
  by_cases hws : wildcard ∈ s.pattern
  · rw [if_pos hws] at hwc hw ⊢
    rcases List.mem_map.mp (List.mem_of_mem_filter hwc) with ⟨e, he, rfl⟩
    rcases mem_findWordsMatchingPure.mp he with ⟨hent, _, hmat⟩
    exact ⟨e, hent, rfl, matchesPattern_length hmat⟩
  · rw [if_neg hws] at hwc
    exact absurd hwc (List.not_mem_nil w)

end Crossword

namespace Crossword

/-- After placing a lowercase word of matching length into an unfilled
slot of a well-formed grid, the invariant still holds and the number of
unfilled slots strictly drops (the slot is now filled; no slot becomes
unfilled, since letters are only added). -/
theorem placeWord_inv_decr {g : Grid} {target : Slot} {w : List Char}
    (hInv : SolverInv g) (htarget : target ∈ g.slots)
    (hwlen : w.length = target.length) (hwl : w.all isLowerAlpha = true)
    (hunf : wildcard ∈ target.pattern) :
    SolverInv (placeWord w target g) ∧
      countUnfilled (placeWord w target g) < countUnfilled g := by
  rcases hInv with ⟨hPat, hShape, hSlots, hLower⟩
  have hguard : ¬ w.length ≠ target.length := fun h => h hwlen
  have hplace : placeWord w target g =
      updateSlotPatterns
        { g with cells := (target.cells.zip w).foldl writeStep g.cells } := by
    unfold placeWord
    rw [if_neg hguard]
  set written := (target.cells.zip w).foldl writeStep g.cells with hwritten
  -- every letter readable from `written` is lowercase
  have hLower' : ∀ r c ch, (cellAtL written r c).letter = some ch →
      isLowerAlpha ch = true := by
    intro r c ch hch
    rcases writeFold_letter (target.cells.zip w) g.cells r c with h | ⟨pc, hpc, h⟩
    · rw [hwritten] at hch
      rw [h] at hch
      exact hLower r c ch hch
    · rw [hwritten] at hch
      rw [h] at hch
      rcases Option.some.inj hch with rfl
      exact List.all_eq_true.mp hwl _ (List.of_mem_zip hpc).2
  -- a slot whose view had no wildcard still has none
  have hkeep : ∀ s ∈ g.slots, wildcard ∉ slotView g s →
      wildcard ∉ (fun p => (cellAtL written p.row p.col).letter.getD wildcard) <$> s.cells := by
    intro s hs hnw hmem
    rcases List.mem_map.mp hmem with ⟨p, hp, hvp⟩
    apply hnw
    rcases writeFold_letter (target.cells.zip w) g.cells p.row p.col
        with h | ⟨pc, hpc, h⟩
    · rw [hwritten] at hvp
      rw [h] at hvp
      refine List.mem_map.mpr ⟨p, hp, hvp⟩
    · exfalso
      rw [hwritten] at hvp
      rw [h] at hvp
      simp only [Option.getD_some] at hvp
      have hl := List.all_eq_true.mp hwl _ (List.of_mem_zip hpc).2
      rw [hvp] at hl
      rw [wildcard_not_lower] at hl
      exact absurd hl (by simp)
  -- the target slot's view is now wildcard-free
  have htfill : wildcard ∉
      (fun p => (cellAtL written p.row p.col).letter.getD wildcard) <$> target.cells := by
    intro hmem
    rcases List.mem_map.mp hmem with ⟨p, hp, hvp⟩
    have hb := (hSlots target htarget).2.2 p hp
    rcases mem_zip_left hp (by
      rw [hwlen, (hSlots target htarget).1]) with ⟨ch, hch⟩
    have hsome := writeFold_covers (target.cells.zip w) g.cells hch hShape hb.1 hb.2
    rcases Option.isSome_iff_exists.mp hsome with ⟨ch0, hch0⟩
    rw [hwritten] at hvp
    rw [hch0] at hvp
    simp only [Option.getD_some] at hvp
    have hl := hLower' p.row p.col ch0 hch0
    rw [hvp, wildcard_not_lower] at hl
    exact absurd hl (by simp)
  constructor
  · rw [hplace]
    refine ⟨patternInv_updateSlotPatterns _, ?_, ?_, ?_⟩
    · exact writeFold_shape hShape
    · intro s' hs'
      rcases List.mem_map.mp hs' with ⟨s, hs, rfl⟩
      refine ⟨(hSlots s hs).1, ?_, (hSlots s hs).2.2⟩
      show (slotView _ s).length = s.length
      unfold slotView
      rw [List.length_map]
      exact (hSlots s hs).1
    · exact hLower'
  · rw [hplace]
    unfold countUnfilled
    show (List.countP _ (g.slots.map _)) < _
    rw [List.countP_map]
    refine countP_lt ?_ target htarget ?_ ?_
    · intro s hs hps
      simp only [Function.comp_apply, decide_eq_true_eq] at hps ⊢
      by_contra hnp
      exact hkeep s hs (fun hmm => hnp (by
        rw [hPat s hs]
        exact hmm)) hps
    · simpa using hunf
    · simp only [Function.comp_apply, decide_eq_true_eq]
      intro hcontra
      exact htfill hcontra

end Crossword

namespace Crossword

theorem tryWords_isSome {recur : Grid → List (List Char) →
      Option (Bool × Grid)} {g : Grid} {target : Slot}
    {used : List (List Char)} : ∀ ws : List (List Char),
    (∀ w ∈ ws, (recur (placeWord w target g) (w :: used)).isSome) →
    (tryWords recur g target used ws).isSome := by
  intro ws
  induction ws with
  | nil => intro _; rw [tryWords]; rfl
  | cons w ws ih =>
    intro h
    rw [tryWords]
    have hrest := ih (fun u hu => h u (List.mem_cons_of_mem w hu))
    split
    · exact hrest
    · split
      · exact hrest
      · have hw := h w (List.mem_cons_self w ws)
        cases hrec : recur (placeWord w target g) (w :: used) with
        | none => rw [hrec] at hw; exact absurd hw (by simp)
        | some bg =>
          rcases bg with ⟨b, gf⟩
          cases b
          · exact hrest
          · rfl

/-- Fuel sufficiency for `fillGrid`: with fuel exceeding the number of
unfilled slots, the recursion always completes (with `true` or `false`).
Each nested call happens after a placement that strictly decreases the
number of unfilled slots. -/
theorem fillGridF_isSome (bank : WordBank) (hbank : WordlikeBank bank) :
    ∀ (fuel : Nat) (g : Grid) (used : List (List Char)), SolverInv g →
    countUnfilled g < fuel → (fillGridF bank fuel g used).isSome := by
  intro fuel
  induction fuel with
  | zero => intro g used _ h; exact absurd h (by omega)
  | succ fuel ih =>
    intro g used hInv hcount
    rw [fillGridF]
    split
    · rfl
    · next hfc =>
      have hfc' : ∀ s ∈ (updateAllCandidates bank g).slots,
          ¬ s.candidates.isEmpty = true := by
        intro s hs hemp
        exact hfc (List.any_eq_true.mpr ⟨s, hs, hemp⟩)
      have hpre : ∀ s ∈ (updateAllCandidates bank g).slots,
          wildcard ∈ s.pattern → s.candidates ≠ [] := by
        intro s hs _ hnil
        exact hfc' s hs (by rw [hnil]; rfl)
      split
      · rfl
      · next target hsel =>
        have hpost := selectAux_post (updateAllCandidates bank g).slots
          (updateAllCandidates bank g).slots [] none none (-1) hpre
          ⟨rfl, rfl, by simp⟩
        rw [List.nil_append] at hpost
        rcases hpost.2 target hsel with ⟨htin, htw, _, _⟩
        have hInv' : SolverInv (updateAllCandidates bank g) :=
          solverInv_uac bank g hInv
        have hcount' :
            countUnfilled (updateAllCandidates bank g) < fuel + 1 := by
          rw [countUnfilled_uac]
          exact hcount
        apply tryWords_isSome
        intro w hwmem
        have hwc := List.mem_of_mem_take hwmem
        rcases uac_target_candidates htin htw hwc with ⟨e, he, rfl, hlen⟩
        have hwlen : e.word.length = target.length := by
          rw [hlen]
          exact (hInv'.2.2.1 target htin).2.1
        have hdecr := placeWord_inv_decr hInv' htin hwlen (hbank e he) htw
        exact ih _ _ hdecr.1 (by
          have := hdecr.2
          rw [countUnfilled_uac] at this
          omega)

end Crossword

namespace Crossword

theorem runFold_bound (white : Nat → Bool) (B : Nat) :
    ∀ (is : List Nat) (acc : List (Nat × Nat) × Option Nat),
    (∀ i ∈ is, i ≤ B) → (∀ r ∈ acc.1, r.1 + r.2 ≤ B) →
    (∀ st, acc.2 = some st → st ≤ B) →
    ∀ r ∈ (is.foldl (runStep white) acc).1, r.1 + r.2 ≤ B := by
  intro is
  induction is with
  | nil => intro acc _ hacc _; exact hacc
  | cons i is ih =>
    intro acc his hacc hcur
    rw [List.foldl_cons]
    apply ih _ (fun j hj => his j (List.mem_cons_of_mem i hj))
    · intro r hr
      unfold runStep at hr
      rcases hc : acc.2 with _ | st
      · rw [hc] at hr
        dsimp only at hr
        by_cases hw : (decide (i < gridSize) && white i) = true
        · rw [if_pos hw] at hr
          exact hacc r hr
        · rw [if_neg hw] at hr
          exact hacc r hr
      · rw [hc] at hr
        dsimp only at hr
        by_cases hw : (decide (i < gridSize) && white i) = true
        · rw [if_pos hw] at hr
          exact hacc r hr
        · rw [if_neg hw] at hr
          dsimp only at hr
          rcases List.mem_append.mp hr with h | h
          · exact hacc r h
          · rw [List.mem_singleton.mp h]
            have hst := hcur st hc
            have hi := his i (List.mem_cons_self i is)
            dsimp only
            omega
    · intro st1 hst
      unfold runStep at hst
      rcases hc : acc.2 with _ | st0
      · rw [hc] at hst
        dsimp only at hst
        by_cases hw : (decide (i < gridSize) && white i) = true
        · rw [if_pos hw] at hst
          dsimp only at hst
          exact Option.some.inj hst ▸ his i (List.mem_cons_self i is)
        · rw [if_neg hw] at hst
          rw [hc] at hst
          exact absurd hst (by simp)
      · rw [hc] at hst
        dsimp only at hst
        by_cases hw : (decide (i < gridSize) && white i) = true
        · rw [if_pos hw] at hst
          have hss := Option.some.inj (hc.symm.trans hst)
          exact hss ▸ hcur st0 hc
        · rw [if_neg hw] at hst
          dsimp only at hst
          exact absurd hst (by simp)

theorem scanRuns_bound {white : Nat → Bool} {r : Nat × Nat}
    (h : r ∈ scanRuns white) : r.1 + r.2 ≤ gridSize := by
  unfold scanRuns at h
  refine runFold_bound white gridSize _ ([], none) ?_ ?_ ?_ r h
  · intro i hi
    have := List.mem_range.mp hi
    omega
  · intro r hr
    exact absurd hr (List.not_mem_nil r)
  · intro st hst
    exact absurd hst (by simp)

theorem detectSlots_bounds {m : Mask} {s : Slot} (h : s ∈ detectSlots m) :
    ∀ p ∈ s.cells, p.row < gridSize ∧ p.col < gridSize := by
  unfold detectSlots at h
  rcases List.mem_map.mp h with ⟨⟨idx, q⟩, hq, rfl⟩
  have hq' : q ∈ _ ++ _ := List.getElem?_mem (List.mem_enum_iff_getElem?.mp hq)
  rcases q with ⟨d, a, b, len⟩
  rcases List.mem_append.mp hq' with hqa | hqd
  · rcases List.mem_flatMap.mp hqa with ⟨r, hr, hmm⟩
    rcases List.mem_map.mp hmm with ⟨sl, hsl, heq⟩
    rcases heq
    have hrun := scanRuns_bound (List.mem_of_mem_filter hsl)
    have hrlt := List.mem_range.mp hr
    intro p hp
    rcases List.mem_map.mp hp with ⟨k, hk, rfl⟩
    have hklt := List.mem_range.mp hk
    exact ⟨hrlt, by simp only; omega⟩
  · rcases List.mem_flatMap.mp hqd with ⟨c, hcl, hmm⟩
    rcases List.mem_map.mp hmm with ⟨sl, hsl, heq⟩
    rcases heq
    have hrun := scanRuns_bound (List.mem_of_mem_filter hsl)
    have hclt := List.mem_range.mp hcl
    intro p hp
    rcases List.mem_map.mp hp with ⟨k, hk, rfl⟩
    have hklt := List.mem_range.mp hk
    exact ⟨by simp only; omega, hclt⟩

theorem acnStep_shape {st : List (List GridCell) × List Slot × Nat}
    {rc : Nat × Nat}
    (h : st.1.length = gridSize ∧ ∀ row ∈ st.1, row.length = gridSize) :
    (acnStep st rc).1.length = gridSize ∧
      ∀ row ∈ (acnStep st rc).1, row.length = gridSize := by
  unfold acnStep
  split
  · exact h
  · split
    · exact h
    · exact modifyCell_shape h

theorem acnFold_shape (pos : List (Nat × Nat)) :
    ∀ (st : List (List GridCell) × List Slot × Nat),
    (st.1.length = gridSize ∧ ∀ row ∈ st.1, row.length = gridSize) →
    ((pos.foldl acnStep st).1.length = gridSize ∧
      ∀ row ∈ (pos.foldl acnStep st).1, row.length = gridSize) := by
  induction pos with
  | nil => intro st h; exact h
  | cons rc pos ih =>
    intro st h
    rw [List.foldl_cons]
    exact ih _ (acnStep_shape h)

theorem initCells_shape (m : Mask) :
    (initCells m).length = gridSize ∧
      ∀ row ∈ initCells m, row.length = gridSize := by
  unfold initCells
  refine ⟨by simp, ?_⟩
  intro row hrow
  rcases List.mem_map.mp hrow with ⟨r, _, rfl⟩
  simp

/-- Every grid built from a mask satisfies the solver invariant. -/
theorem solverInv_buildGrid (m : Mask) : SolverInv (buildGrid m) := by
  refine ⟨patternInv_buildGrid m, ?_, ?_, ?_⟩
  · rw [buildGrid_cells]
    exact acnFold_shape _ _ (initCells_shape m)
  · intro s hs
    have hsh := buildGrid_slot_shape hs
    rw [buildGrid_slots] at hs
    rcases acnFold_slots hs with ⟨s0, hs0, hpat, hcells, hlen⟩
    refine ⟨hsh.2, ?_, ?_⟩
    · rw [hsh.1, List.length_replicate]
    · rw [hcells]
      exact detectSlots_bounds hs0
  · intro r c ch hch
    rw [buildGrid_letter] at hch
    exact absurd hch (by simp)

end Crossword

namespace Crossword

/-! ## The index-driven generator (the `backtrackFill` variant)

`Math.random()` is modelled as an arbitrary stream of naturals indexed by
a running draw counter: the draw for bound `k` is `stream pos % k`, so
every sequence of real draws corresponds to some stream and vice versa.
The word-history filter (an external collaborator) is modelled by the set
`recent` of recently used words.  On backtrack the source's
`removeWord`/`assignments.delete` pair restores the pre-placement state,
so the model resumes from the prior values. -/

/-- The Fisher–Yates swap `[a[i], a[j]] = [a[j], a[i]]` (the loop only
produces in-range indices). -/
def swapL {α : Type _} (l : List α) (i j : Nat) : List α :=
  match l[i]?, l[j]? with
  | some a, some b => (l.set i b).set j a
  | _, _ => l

/-- The Fisher–Yates loop of `shuffleArray`, from the current index down
to 1, threading the draw counter. -/
def fyAux {α : Type _} (stream : Nat → Nat) :
    Nat → Nat → List α → List α × Nat
  | pos, 0, arr => (arr, pos)
  | pos, i + 1, arr =>
      fyAux stream (pos + 1) i (swapL arr (i + 1) (stream pos % (i + 2)))

/-- `CrosswordGenerator.shuffleArray`. -/
def shuffleArray {α : Type _} (stream : Nat → Nat) (pos : Nat)
    (l : List α) : List α × Nat :=
  fyAux stream pos (l.length - 1) l

/-- JavaScript `slice(0, e)` with a possibly negative end index. -/
def jsSliceTo {α : Type _} (e : Int) (l : List α) : List α :=
  if e < 0 then l.take ((l.length : Int) + e).toNat else l.take e.toNat

/-- `Math.floor(n * 0.3)`: for every candidate-list length `n` arising
here the IEEE-double product `n * 0.3` has the same floor as `3n/10`
(0.3 rounds to a double slightly below 3/10 and the product rounds back
onto the same floor for all `n` far below 2^51). -/
def jsFloor03 (n : Nat) : Nat := 3 * n / 10

/-- `CrosswordGenerator.diversifyWordSelection`: lists at most the cap
long are just shuffled; longer lists are sorted by descending frequency,
the top 30% shuffled, a shuffled slice of the remainder appended, the
concatenation shuffled again and capped. -/
def diversifyWordSelection (stream : Nat → Nat) (pos : Nat)
    (candidates : List WordEntry) (maxCandidates : Nat) :
    List WordEntry × Nat :=
  if candidates.length ≤ maxCandidates then shuffleArray stream pos candidates
  else
    let sortedByFreq := sortByFrequency candidates
    let t := jsFloor03 candidates.length
    let res1 := shuffleArray stream pos (sortedByFreq.take t)
    let res2 := shuffleArray stream res1.2 (sortedByFreq.drop t)
    let randomTier := jsSliceTo ((maxCandidates : Int) - res1.1.length) res2.1
    let res3 := shuffleArray stream res2.2 (res1.1 ++ randomTier)
    (res3.1.take maxCandidates, res3.2)

/-- `getSlotPattern`: the slot's current letters with wildcards. -/
def getSlotPattern (cells : List (List GridCell)) (slot : Slot) :
    List Char :=
  slot.cells.map (fun p => (cellAtL cells p.row p.col).letter.getD wildcard)

/-- The `isValidPlacement` of the index-driven generator: per cell, an
existing letter must match (case-insensitively), the cell must be in
bounds and not black.  (`word[i]` is never out of range in the solver's
flows, since candidates match the slot pattern's length.) -/
def bfIsValidPlacement (cells : List (List GridCell)) (slot : Slot)
    (w : List Char) : Bool :=
  slot.cells.enum.all (fun ip =>
    (match (cellAtL cells ip.2.row ip.2.col).letter,
        (w[ip.1]?).map Char.toLower with
     | some cur, some l => cur.toLower == l
     | some _, none => false
     | none, _ => true) &&
    decide (ip.2.row < 5) && decide (ip.2.col < 5) &&
    ((cellAtL cells ip.2.row ip.2.col).ctype != '#'))

/-- The `placeWord` of the index-driven generator: write lowercased
letters, stamping the clue number on the first cell. -/
def bfPlaceWord (cells : List (List GridCell)) (slot : Slot)
    (w : List Char) : List (List GridCell) :=
  slot.cells.enum.foldl (fun cs ip =>
    let cs1 := modifyCell cs ip.2.row ip.2.col
      (fun cell => { cell with letter := (w[ip.1]?).map Char.toLower })
    if ip.1 = 0 then
      modifyCell cs1 ip.2.row ip.2.col
        (fun cell => { cell with number := some slot.number })
    else cs1) cells

/-- The candidate loop of `backtrackFill`: skip words already assigned,
place valid ones and recurse (`recur` carries slot index + 1 and the
current backtrack count), resuming from the prior state when the
recursion returns `null`.  Results thread the draw counter; the outer
`none` means the fuel ran out. -/
def bfTry
    (recur : List (List GridCell) → List (Nat × List Char) → Nat →
      Option (Nat × Option (List (List GridCell) × List (Nat × List Char))))
    (grid : List (List GridCell)) (assignments : List (Nat × List Char))
    (slot : Slot) :
    List WordEntry → Nat →
    Option (Nat × Option (List (List GridCell) × List (Nat × List Char)))
  | [], pos => some (pos, none)
  | cand :: rest, pos =>
    if assignments.any (fun kv => kv.2 == cand.word.map Char.toLower) then
      bfTry recur grid assignments slot rest pos
    else if bfIsValidPlacement grid slot (cand.word.map Char.toLower) then
      match recur (bfPlaceWord grid slot (cand.word.map Char.toLower))
          ((slot.id, cand.word.map Char.toLower) ::
            assignments.filter (fun kv => kv.1 != slot.id)) pos with
      | none => none
      | some (pos', some r) => some (pos', some r)
      | some (pos', none) => bfTry recur grid assignments slot rest pos'
    else bfTry recur grid assignments slot rest pos

/-- `CrosswordGenerator.backtrackFill` with explicit fuel: success when
every slot index is processed, `null` past the backtrack budget, else try
the diversified fresh candidates for the current slot and on exhaustion
walk back to the previous index with an incremented backtrack count. -/
def backtrackFillF (bank : WordBank) (recent : List (List Char))
    (stream : Nat → Nat) (maxB : Nat) (slots : List Slot) :
    Nat → List (List GridCell) → List (Nat × List Char) → Nat → Nat →
    Nat →
    Option (Nat × Option (List (List GridCell) × List (Nat × List Char)))
  | 0, _, _, _, _, _ => none
  | fuel + 1, grid, assignments, slotIndex, b, pos =>
    if slots.length ≤ slotIndex then some (pos, some (grid, assignments))
    else if maxB < b then some (pos, none)
    else
      match slots[slotIndex]? with
      | none => some (pos, none)
      | some currentSlot =>
        if currentSlot.cells.isEmpty then some (pos, none)
        else
          match bfTry
              (fun g' a' p' => backtrackFillF bank recent stream maxB slots
                fuel g' a' (slotIndex + 1) b p')
              grid assignments currentSlot
              (diversifyWordSelection stream pos
                (if ((findWordsMatchingPure bank.entries currentSlot.length
                      (getSlotPattern grid currentSlot)).filter
                    (fun e => !(recent.contains
                      (e.word.map Char.toLower)))).isEmpty then
                  findWordsMatchingPure bank.entries currentSlot.length
                    (getSlotPattern grid currentSlot)
                else
                  (findWordsMatchingPure bank.entries currentSlot.length
                      (getSlotPattern grid currentSlot)).filter
                    (fun e => !(recent.contains
                      (e.word.map Char.toLower)))) 50).1
              (diversifyWordSelection stream pos
                (if ((findWordsMatchingPure bank.entries currentSlot.length
                      (getSlotPattern grid currentSlot)).filter
                    (fun e => !(recent.contains
                      (e.word.map Char.toLower)))).isEmpty then
                  findWordsMatchingPure bank.entries currentSlot.length
                    (getSlotPattern grid currentSlot)
                else
                  (findWordsMatchingPure bank.entries currentSlot.length
                      (getSlotPattern grid currentSlot)).filter
                    (fun e => !(recent.contains
                      (e.word.map Char.toLower)))) 50).2 with
          | none => none
          | some (pos', some r) => some (pos', some r)
          | some (pos', none) =>
            if slotIndex = 0 then some (pos', none)
            else
              backtrackFillF bank recent stream maxB slots fuel grid
                assignments (slotIndex - 1) (b + 1) pos'

end Crossword

namespace Crossword

/-! ### Claim C5: both solvers terminate -/

/-- Termination measure for `backtrackFill`: walking back consumes
backtrack budget, advancing consumes remaining slots. -/
def bfMeasure (maxB len i b : Nat) : Nat :=
  (maxB + 1 - b) * (len + 2) + (len + 1 - i)

theorem bfMeasure_step_right (maxB len i b : Nat) (hi : i < len) :
    bfMeasure maxB len (i + 1) b + 1 = bfMeasure maxB len i b := by
  unfold bfMeasure
  generalize (maxB + 1 - b) * (len + 2) = A
  omega

theorem bfMeasure_step_up (maxB len i b : Nat) (hb : b ≤ maxB)
    (hi : 1 ≤ i) (hil : i < len) :
    bfMeasure maxB len (i - 1) (b + 1) < bfMeasure maxB len i b := by
  unfold bfMeasure
  have hx : maxB + 1 - b = (maxB + 1 - (b + 1)) + 1 := by omega
  rw [hx, Nat.succ_mul]
  generalize (maxB + 1 - (b + 1)) * (len + 2) = A
  omega

theorem bfTry_isSome
    (recur : List (List GridCell) → List (Nat × List Char) → Nat →
      Option (Nat × Option (List (List GridCell) × List (Nat × List Char))))
    (grid : List (List GridCell)) (asg : List (Nat × List Char))
    (slot : Slot) (hrec : ∀ g' a' p', (recur g' a' p').isSome) :
    ∀ (cands : List WordEntry) (pos : Nat),
    (bfTry recur grid asg slot cands pos).isSome := by
  intro cands
  induction cands with
  | nil => intro pos; rw [bfTry]; rfl
  | cons cand rest ih =>
    intro pos
    rw [bfTry]
    split
    · exact ih pos
    · split
      · cases hr : recur (bfPlaceWord grid slot (cand.word.map Char.toLower))
            ((slot.id, cand.word.map Char.toLower) ::
              asg.filter (fun kv => kv.1 != slot.id)) pos with
        | none =>
          have := hrec (bfPlaceWord grid slot (cand.word.map Char.toLower))
            ((slot.id, cand.word.map Char.toLower) ::
              asg.filter (fun kv => kv.1 != slot.id)) pos
          rw [hr] at this
          exact absurd this (by simp)
        | some pr =>
          rcases pr with ⟨pos', r⟩
          cases r with
          | none => exact ih pos'
          | some sol => rfl
      · exact ih pos

/-- Fuel sufficiency for `backtrackFill`: with fuel above the measure the
search always returns a solution or `null`. -/
theorem backtrackFillF_isSome (bank : WordBank) (recent : List (List Char))
    (stream : Nat → Nat) (maxB : Nat) (slots : List Slot) :
    ∀ (fuel : Nat) (grid : List (List GridCell))
      (asg : List (Nat × List Char)) (i b pos : Nat),
    bfMeasure maxB slots.length i b < fuel →
    (backtrackFillF bank recent stream maxB slots fuel grid asg i b
        pos).isSome := by
  intro fuel
  induction fuel with
  | zero => intro _ _ _ _ _ h; exact absurd h (by omega)
  | succ fuel ih =>
    intro grid asg i b pos hm
    rw [backtrackFillF]
    split
    · rfl
    · next hlen =>
      split
      · rfl
      · next hb =>
        have hil : i < slots.length := by omega
        have hble : b ≤ maxB := by omega
        split
        · rfl
        · next currentSlot hslot =>
          split
          · rfl
          · have hrec : ∀ g' a' p',
                (backtrackFillF bank recent stream maxB slots fuel g' a'
                  (i + 1) b p').isSome := by
              intro g' a' p'
              apply ih
              have := bfMeasure_step_right maxB slots.length i b hil
              omega
            have hts := bfTry_isSome
              (fun g' a' p' => backtrackFillF bank recent stream maxB slots
                fuel g' a' (i + 1) b p')
              grid asg currentSlot hrec
              (diversifyWordSelection stream pos
                (if ((findWordsMatchingPure bank.entries currentSlot.length
                      (getSlotPattern grid currentSlot)).filter
                    (fun e => !(recent.contains
                      (e.word.map Char.toLower)))).isEmpty then
                  findWordsMatchingPure bank.entries currentSlot.length
                    (getSlotPattern grid currentSlot)
                else
                  (findWordsMatchingPure bank.entries currentSlot.length
                      (getSlotPattern grid currentSlot)).filter
                    (fun e => !(recent.contains
                      (e.word.map Char.toLower)))) 50).1
              (diversifyWordSelection stream pos
                (if ((findWordsMatchingPure bank.entries currentSlot.length
                      (getSlotPattern grid currentSlot)).filter
                    (fun e => !(recent.contains
                      (e.word.map Char.toLower)))).isEmpty then
                  findWordsMatchingPure bank.entries currentSlot.length
                    (getSlotPattern grid currentSlot)
                else
                  (findWordsMatchingPure bank.entries currentSlot.length
                      (getSlotPattern grid currentSlot)).filter
                    (fun e => !(recent.contains
                      (e.word.map Char.toLower)))) 50).2
            split
            · next heq =>
              rw [heq] at hts
              exact absurd hts (by simp)
            · rfl
            · next pos' heq =>
              split
              · rfl
              · next hi0 =>
                apply ih
                have h1 : 1 ≤ i := by omega
                have hstep := bfMeasure_step_up maxB slots.length i b
                  hble h1 hil
                omega

end Crossword

namespace Crossword

/-- C5: both solvers terminate.  (1) `fillGrid` on any grid built from a
mask, with any initialized (lowercase-word) store: fuel exceeding the
number of unfilled slots always yields `true` or `false`, because each
recursive call strictly decreases that number.  (2) The index-driven
`backtrackFill` always returns a solution or `null` once the fuel exceeds
the lexicographic measure of remaining backtrack budget and remaining
slot indices. -/
theorem C5_solver_terminates :
    (∀ (bank : WordBank) (mask : Mask) (used : List (List Char))
        (fuel : Nat), WordlikeBank bank →
      countUnfilled (buildGrid mask) < fuel →
      (fillGridF bank fuel (buildGrid mask) used).isSome) ∧
    (∀ (bank : WordBank) (recent : List (List Char)) (stream : Nat → Nat)
        (maxB : Nat) (slots : List Slot) (fuel : Nat)
        (grid : List (List GridCell)) (asg : List (Nat × List Char))
        (i b pos : Nat),
      bfMeasure maxB slots.length i b < fuel →
      (backtrackFillF bank recent stream maxB slots fuel grid asg i b
          pos).isSome) :=
  ⟨fun bank mask used fuel hb hc =>
      fillGridF_isSome bank hb fuel _ used (solverInv_buildGrid mask) hc,
    fun bank recent stream maxB slots fuel grid asg i b pos h =>
      backtrackFillF_isSome bank recent stream maxB slots fuel grid asg
        i b pos h⟩

/-- Witness for C5 at concrete inputs: the §8 mask with the three-word
store, and a one-slot instance of the index-driven search. -/
theorem C5_witness :
    (WordlikeBank bankCCC ∧ countUnfilled (buildGrid m0) < 3 ∧
      (fillGridF bankCCC 3 (buildGrid m0) []).isSome) ∧
    (bfMeasure 50 1 0 0 < 200 ∧
      (backtrackFillF (initializeBank []) [] (fun _ => 0) 50 [defaultSlot]
          200 [] [] 0 0 0).isSome) := by
  have hall : bankCCC.entries.all (fun e => e.word.all isLowerAlpha) =
      true := by decide
  refine ⟨⟨?_, ?_, ?_⟩, ⟨?_, ?_⟩⟩
  · exact fun e he => List.all_eq_true.mp hall e he
  · decide
  · exact C5_solver_terminates.1 bankCCC m0 [] 3
      (fun e he => List.all_eq_true.mp hall e he) (by decide)
  · decide
  · exact C5_solver_terminates.2 (initializeBank []) [] (fun _ => 0) 50
      [defaultSlot] 200 [] [] 0 0 0 (by decide)

end Crossword

namespace Crossword

/-- `swapL` preserves length. -/
theorem swapL_length {α : Type _} (l : List α) (i j : Nat) :
    (swapL l i j).length = l.length := by
  unfold swapL
  split
  · simp [List.length_set]
  · rfl

/-- `swapL` preserves membership. -/
theorem mem_swapL {α : Type _} {e : α} {l : List α} {i j : Nat}
    (h : e ∈ swapL l i j) : e ∈ l := by
  unfold swapL at h
  split at h
  · next a b hi hj =>
      rcases List.mem_or_eq_of_mem_set h with h2 | h2
      · rcases List.mem_or_eq_of_mem_set h2 with h3 | h3
        · exact h3
        · exact h3 ▸ List.getElem?_mem hj
      · exact h2 ▸ List.getElem?_mem hi
  · exact h

/-- The Fisher–Yates loop preserves length. -/
theorem fyAux_length {α : Type _} (stream : Nat → Nat) (i : Nat) :
    ∀ (pos : Nat) (l : List α),
      (fyAux stream pos i l).1.length = l.length := by
  induction i with
  | zero => intro pos l; rfl
  | succ k ih =>
      intro pos l
      simp only [fyAux]
      rw [ih, swapL_length]

/-- The Fisher–Yates loop preserves membership. -/
theorem mem_fyAux {α : Type _} (stream : Nat → Nat) (i : Nat) :
    ∀ (pos : Nat) (l : List α) (e : α),
      e ∈ (fyAux stream pos i l).1 → e ∈ l := by
  induction i with
  | zero => intro pos l e h; exact h
  | succ k ih =>
      intro pos l e h
      simp only [fyAux] at h
      exact mem_swapL (ih _ _ _ h)

/-- `shuffleArray` preserves length. -/
theorem shuffleArray_length {α : Type _} (stream : Nat → Nat) (pos : Nat)
    (l : List α) : (shuffleArray stream pos l).1.length = l.length :=
  fyAux_length stream (l.length - 1) pos l

/-- `shuffleArray` preserves membership. -/
theorem mem_shuffleArray {α : Type _} {e : α} {l : List α}
    (stream : Nat → Nat) (pos : Nat)
    (h : e ∈ (shuffleArray stream pos l).1) : e ∈ l :=
  mem_fyAux stream (l.length - 1) pos l e h

/-- `slice(0, e)` only selects existing elements. -/
theorem mem_jsSliceTo {α : Type _} {e : α} {E : Int} {l : List α}
    (h : e ∈ jsSliceTo E l) : e ∈ l := by
  unfold jsSliceTo at h
  split at h <;> exact List.mem_of_mem_take h

/-- Length of a JavaScript `slice(0, e)`. -/
theorem length_jsSliceTo {α : Type _} (E : Int) (l : List α) :
    (jsSliceTo E l).length =
      if E < 0 then min ((l.length : Int) + E).toNat l.length
      else min E.toNat l.length := by
  unfold jsSliceTo
  split <;> rw [List.length_take]

/-- C8 (amended): when the candidate list exceeds the cap, the
diversified selection has exactly the capped length and draws only from
the original candidates.  The claim's further assertion — that every
returned entry from the high-frequency top partition precedes every
entry from the remainder — is false: the final `shuffleArray` of the
concatenation destroys that order (see the counterexample). -/
theorem C8_diversify_capped (stream : Nat → Nat) (pos : Nat)
    (candidates : List WordEntry) (maxC : Nat)
    (h : maxC < candidates.length) :
    (diversifyWordSelection stream pos candidates maxC).1.length = maxC ∧
      ∀ e ∈ (diversifyWordSelection stream pos candidates maxC).1,
        e ∈ candidates := by
  have hsl : (sortByFrequency candidates).length = candidates.length :=
    (List.perm_insertionSort freqGe candidates).length_eq
  have ht : jsFloor03 candidates.length ≤ candidates.length := by
    unfold jsFloor03; omega
  have h2t : 2 * jsFloor03 candidates.length ≤ candidates.length := by
    unfold jsFloor03; omega
  unfold diversifyWordSelection
  rw [if_neg (by omega)]
  constructor
  · rw [List.length_take, shuffleArray_length, List.length_append,
      shuffleArray_length, List.length_take, hsl, length_jsSliceTo,
      shuffleArray_length, List.length_drop, hsl]
    split
    · omega
    · omega
  · intro e he
    have h2 := mem_shuffleArray _ _ (List.mem_of_mem_take he)
    rcases List.mem_append.mp h2 with h3 | h3
    · exact mem_sortByFrequency.mp
        (List.mem_of_mem_take (mem_shuffleArray _ _ h3))
    · exact mem_sortByFrequency.mp
        (List.mem_of_mem_drop (mem_shuffleArray _ _ (mem_jsSliceTo h3)))

/-- 51 entries with pairwise distinct frequencies 1000 down to 950,
already in descending order. -/
def c51 : List WordEntry :=
  (List.range 51).map (fun k =>
    ⟨[Char.ofNat (97 + k % 26)], some ((1000 : Int) - k)⟩)

/-- Three entries, for exercising the over-cap branch at cap 2. -/
def cABC : List WordEntry :=
  [⟨['a'], some 3⟩, ⟨['b'], some 2⟩, ⟨['c'], some 1⟩]

/-- C8 counterexample: on 51 candidates with cap 50 and the all-zeros
draw stream, every top-partition entry (the sorted prefix of length
`floor(0.3·51) = 15`) has frequency at least 986 and every remainder
entry at most 985; yet the result places an entry of frequency 984 (a
remainder entry) at index 14 while an entry of frequency 999 (a top
entry) sits at index 49 — a top-partition entry does NOT precede every
remainder entry. -/
theorem C8_counterexample :
    50 < c51.length ∧
    (∀ e ∈ (sortByFrequency c51).take (jsFloor03 c51.length),
        (986 : Int) ≤ e.frequency.getD 0) ∧
    (∀ e ∈ (sortByFrequency c51).drop (jsFloor03 c51.length),
        e.frequency.getD 0 ≤ 985) ∧
    ((diversifyWordSelection (fun _ => 0) 0 c51 50).1[14]?).map
        (fun e => e.frequency.getD 0) = some 984 ∧
    ((diversifyWordSelection (fun _ => 0) 0 c51 50).1[49]?).map
        (fun e => e.frequency.getD 0) = some 999 := by
  decide

/-- Witness for C8 at a concrete over-cap input. -/
theorem C8_witness :
    2 < cABC.length ∧
    ((diversifyWordSelection (fun _ => 0) 0 cABC 2).1.length = 2 ∧
      ∀ e ∈ (diversifyWordSelection (fun _ => 0) 0 cABC 2).1,
        e ∈ cABC) :=
  ⟨by decide, C8_diversify_capped (fun _ => 0) 0 cABC 2 (by decide)⟩

end Crossword
